import Mathlib

/-!
Shallow embedding of the schema/rule/deduction engine of `deductor.py`
(class `DerivateRule`, class `DeductorBase`, class `Validator`,
class `AliasAttribute`) and proofs about it.

Conventions of the embedding:
* variable names are strings, numeric values are rationals;
* the floating-point NaN sentinel is modelled by `Option ℚ` with `none`
  standing for NaN (a rule function returns `PyVal.num none` for NaN);
* a Python function that may return either a scalar or a tuple is modelled
  by `PyVal` (`num` for a scalar float, `seq` for a tuple of floats);
* exceptions are modelled with `Except`; each distinct `raise` site of the
  source gets its own error constructor;
* the working dictionary `variables` of `DeductorBase.__init__` is an
  association list; the companion set `variables_names` is kept in sync
  with `variables.keys()` by the source at every step, so the embedding
  derives it from the association list (`keysF`);
* the unbounded `while` loop of `DeductorBase.__init__` is run with
  explicit fuel; `deduce` supplies fuel that is proved sufficient
  (`deduction_terminates`), with `DeduceErr.fuelExceeded` marking
  exhaustion.
-/

set_option autoImplicit false

deriving instance DecidableEq for Except

abbrev Name := String

abbrev Vars := List (Name × ℚ)

/-- Lookup in the working dictionary: `variables.get(name)`. -/
def lookupVar (vars : Vars) (n : Name) : Option ℚ :=
  (vars.find? (fun p => p.1 == n)).map Prod.snd

/-- The set of known names, `set(variables.keys())`. -/
def keysF (vars : Vars) : Finset Name :=
  (vars.map Prod.fst).toFinset

/-- Result of a Python rule function: a scalar float (possibly NaN) or a
tuple of floats. -/
inductive PyVal where
  | num : Option ℚ → PyVal
  | seq : List (Option ℚ) → PyVal
deriving DecidableEq

/-- Embedding of class `DerivateRule`: declared output names, declared
input names and the rule function (applied positionally to the input
values, in declared input order). -/
structure DerivateRule where
  out_vars : List Name
  in_vars : List Name
  func : List ℚ → PyVal

/-- Error of `DerivateRule.__init__` (the `ValueError` for an input-arity
mismatch between `input_names` and the function signature). -/
inductive RegErr where
  | arityMismatch
deriving DecidableEq

/-- Embedding of `DerivateRule.__init__`: when `input_names` is given its
length is checked against the function's parameter count
(`func_arg_names`); otherwise the parameter names are used as inputs.
The output names are stored without any check. -/
def mkDerivateRule (output_names : List Name) (func : List ℚ → PyVal)
    (func_arg_names : List Name) (input_names : Option (List Name)) :
    Except RegErr DerivateRule :=
  match input_names with
  | some ins =>
      if ins.length = func_arg_names.length then
        .ok ⟨output_names, ins, func⟩
      else
        .error .arityMismatch
  | none => .ok ⟨output_names, func_arg_names, func⟩

/-- Error of `DerivateRule.__call__`: the `TypeError` raised while parsing
the function result against the declared output names. -/
inductive CallErr where
  | typeErr
deriving DecidableEq

/-- Embedding of `DerivateRule.__call__`.  If some input is unknown the
rule deduces nothing (`return \x7b\x7d`).  Otherwise the function is applied;
with one declared output the raw result is bound to it; with any other
output count the result must be a sequence of exactly matching length,
else `TypeError` (`len` of a scalar also raises `TypeError`). -/
def DerivateRule.call (r : DerivateRule) (vars : Vars) :
    Except CallErr (List (Name × PyVal)) :=
  if r.in_vars.all (fun n => (lookupVar vars n).isSome) then
    match r.out_vars, r.func (r.in_vars.map (fun n => (lookupVar vars n).getD 0)) with
    | [o], v => .ok [(o, v)]
    | outs, .seq l =>
        if outs.length = l.length then .ok (outs.zip (l.map PyVal.num))
        else .error .typeErr
    | _, .num _ => .error .typeErr
  else .ok []

/-- The errors of `DeductorBase.__init__` (each a distinct `raise` site),
plus `fuelExceeded` marking exhaustion of the explicit fuel given to the
embedded `while` loop. -/
inductive DeduceErr where
  | unknownVariable (n : Name)
  | deducedNaN (n : Name)
  | contradiction (n : Name) (old val : ℚ)
  | typeErr
  | fuelExceeded
deriving DecidableEq

/-- Loop state of `DeductorBase.__init__`: the working dictionary and the
pass counter `n_variables_deduced`. -/
structure DState where
  vars : Vars
  count : ℕ
deriving DecidableEq

/-- Embedding of the per-produced-value body of the deduction loop
(`for name, value in new_variables.items()`): NaN check first, then the
new-value / existing-value branch with the relative-tolerance
contradiction test `abs(value - old) > tol * max(abs(old), abs(value))`. -/
def processOne (tol : ℚ) (st : DState) (name : Name) (v : PyVal) :
    Except DeduceErr DState :=
  match v with
  | .seq _ => .error .typeErr
  | .num none => .error (.deducedNaN name)
  | .num (some q) =>
      match lookupVar st.vars name with
      | none => .ok ⟨st.vars ++ [(name, q)], st.count + 1⟩
      | some old =>
          if |q - old| > tol * max |old| |q| then
            .error (.contradiction name old q)
          else .ok st

/-- Fold of `processOne` over the values produced by one rule call. -/
def foldP (tol : ℚ) : DState → List (Name × PyVal) → Except DeduceErr DState
  | st, [] => .ok st
  | st, p :: rest =>
      match processOne tol st p.1 p.2 with
      | .error e => .error e
      | .ok st2 => foldP tol st2 rest

/-- One rule evaluation inside a pass: call the rule on the current
dictionary and process every produced value. -/
def applyRule (tol : ℚ) (st : DState) (r : DerivateRule) :
    Except DeduceErr DState :=
  match r.call st.vars with
  | .error _ => .error .typeErr
  | .ok outs => foldP tol st outs

/-- Fold of `applyRule` over the rule list. -/
def foldR (tol : ℚ) : DState → List DerivateRule → Except DeduceErr DState
  | st, [] => .ok st
  | st, r :: rest =>
      match applyRule tol st r with
      | .error e => .error e
      | .ok st2 => foldR tol st2 rest

/-- One full pass of the `while` loop: reset `n_variables_deduced` to zero
and evaluate every rule in list order. -/
def runPass (tol : ℚ) (rules : List DerivateRule) (vars : Vars) :
    Except DeduceErr DState :=
  foldR tol ⟨vars, 0⟩ rules

/-- The `while n_variables_deduced > 0` loop, with explicit fuel. -/
def deduceLoop (tol : ℚ) (rules : List DerivateRule) :
    ℕ → Vars → ℕ → Except DeduceErr Vars
  | 0, _, _ => .error .fuelExceeded
  | fuel + 1, vars, n =>
      if 0 < n then
        match runPass tol rules vars with
        | .error e => .error e
        | .ok st => deduceLoop tol rules fuel st.vars st.count
      else .ok vars

/-- The names a seed entry is checked against (`valid_input_names` of
`DeductorBase.__init__`): the base attribute names plus every rule's
declared *input* names. -/
def validNames (base : List Name) (rules : List DerivateRule) : List Name :=
  base ++ rules.foldr (fun r acc => r.in_vars ++ acc) []

/-- Total number of declared rule output names, used to size the fuel. -/
def outNamesCount (rules : List DerivateRule) : ℕ :=
  (rules.foldr (fun r acc => r.out_vars ++ acc) []).length

/-- All declared rule output names, as a finite set. -/
def allOutF (rules : List DerivateRule) : Finset Name :=
  (rules.foldr (fun r acc => r.out_vars ++ acc) []).toFinset

/-- Embedding of the deduction part of `DeductorBase.__init__` (lines
277-310): validate every seed name against `valid_input_names` (first
offender raises), then run the propagation loop starting from
`n_variables_deduced = len(variables)`. -/
def deduce (tol : ℚ) (base : List Name) (rules : List DerivateRule)
    (seed : Vars) : Except DeduceErr Vars :=
  match seed.find? (fun p => decide (p.1 ∉ validNames base rules)) with
  | some p => .error (.unknownVariable p.1)
  | none => deduceLoop tol rules (outNamesCount rules + 2) seed seed.length

/-- Embedding of `DeductorBase.__init__` through the base-attribute
assignment (lines 277-316, with `validate=False`): after deduction every
base attribute is set to its deduced value, or to NaN (`none`) when it is
not in the final dictionary. -/
def initDeductor (tol : ℚ) (base : List Name) (rules : List DerivateRule)
    (seed : Vars) : Except DeduceErr (List (Name × Option ℚ)) :=
  (deduce tol base rules seed).map
    (fun V => base.map (fun n => (n, lookupVar V n)))

/-- Names derivable from a seed set of names: the least set containing the
seed and closed under firing any rule of the list whose inputs are all
derivable.  Membership depends only on which rules are in the list, never
on their order. -/
inductive InClosure (rules : List DerivateRule) (K : Finset Name) : Name → Prop
  | seed {x : Name} : x ∈ K → InClosure rules K x
  | rule {r : DerivateRule} {x : Name} : r ∈ rules →
      (∀ i ∈ r.in_vars, InClosure rules K i) → x ∈ r.out_vars →
      InClosure rules K x

/-- Relation between loop states across a fragment of a pass, over a set
`A` bounding the names that can be added: the counter is monotone, the
known names grow inside `A`, an unchanged counter means an unchanged
state, and a strictly increased counter means strictly more known
names. -/
def StepR (A : Finset Name) (st st2 : DState) : Prop :=
  st.count ≤ st2.count ∧
  keysF st.vars ⊆ keysF st2.vars ∧
  (∀ x ∈ keysF st2.vars, x ∈ keysF st.vars ∨ x ∈ A) ∧
  (st2.count = st.count → st2 = st) ∧
  (st.count < st2.count → keysF st.vars ⊂ keysF st2.vars)

/-- Errors of `Validator.__call__`: the strict-mode `ValueError` for
undefined arguments, and the `ValueError` for a false predicate. -/
inductive ValErr where
  | missingInput (d : String)
  | validationFailed (d : String)
deriving DecidableEq

/-- Embedding of class `Validator`: argument attribute names, predicate,
strictness flag and description. -/
structure Validator where
  args : List Name
  pred : List ℚ → Bool
  strict : Bool
  desc : String

/-- An instance's attribute readings: `none` models a NaN reading. -/
abbrev MInst := List (Name × Option ℚ)

def readAttr (m : MInst) (n : Name) : Option ℚ :=
  ((m.find? (fun p => p.1 == n)).map Prod.snd).getD none

/-- Embedding of `Validator.__call__`: if any argument reads NaN, strict
validators fail with `missingInput` and non-strict ones skip silently;
otherwise a false predicate fails with `validationFailed`. -/
def Validator.callV (v : Validator) (m : MInst) : Except ValErr Unit :=
  let reads := v.args.map (readAttr m)
  if reads.all Option.isSome then
    if v.pred (reads.map (fun o => o.getD 0)) then .ok () else
      .error (.validationFailed v.desc)
  else
    if v.strict then .error (.missingInput v.desc) else .ok ()

/-- Embedding of the loop body of `DeductorBase.validate`: run validators
in order, aborting at the first raised error. -/
def runValidators (m : MInst) : List Validator → Except ValErr Unit
  | [] => .ok ()
  | v :: rest =>
      match v.callV m with
      | .error e => .error e
      | .ok _ => runValidators m rest

/-- A linear class hierarchy, base-most frame first; each frame holds the
`_VALIDATORS` list of that class if the class defines one.  (The root
frame models `DeductorBase`, which defines `_VALIDATORS = []`.) -/
abbrev Frames := List (Option (List Validator))

/-- Python attribute lookup of `_VALIDATORS` on the most derived class of
the given frames: the nearest definer wins. -/
def lookupOwnValidators (frames : Frames) : List Validator :=
  (frames.reverse.findSome? id).getD []

/-- The composed list `_ALL_VALIDATORS` built by
`DeductorBase.__init_subclass__`: for each class of the reversed MRO
(base-most first), append the `_VALIDATORS` that attribute lookup finds
from that class. -/
def allValidators (frames : Frames) : List Validator :=
  (List.range frames.length).foldr
    (fun i acc => lookupOwnValidators (frames.take (i + 1)) ++ acc) []

/-- Embedding of `DeductorBase.validate` as written: it iterates
`self._VALIDATORS` (the nearest class's own list), not the composed
`_ALL_VALIDATORS`. -/
def validateModel (frames : Frames) (m : MInst) : Except ValErr Unit :=
  runValidators m (lookupOwnValidators frames)

/-- Metadata of one attribute descriptor: name, units, description. -/
structure AttrMeta where
  name : Name
  units : Option String
  desc : Option String
deriving DecidableEq

/-- Embedding of class `AliasAttribute`: its own metadata plus the target
attribute name. -/
structure AliasAttribute where
  meta : AttrMeta
  original_name : Name

/-- Embedding of `AliasAttribute.__init__`: the superclass constructor is
always called with `units=None` and `desc=None`. -/
def AliasAttribute.mk' (name original : Name) : AliasAttribute :=
  ⟨⟨name, none, none⟩, original⟩

/-- Embedding of the metadata-copying loop of
`AliasAttribute.add_to_class`: scan `cls._ATTRIBUTES` (the class's own
attribute list) and, on a descriptor whose name equals the alias target,
fill in units and description if still `None`. -/
def aliasAddToClassMeta (a : AliasAttribute) (clsAttrs : List AttrMeta) :
    AttrMeta :=
  clsAttrs.foldl
    (fun s t =>
      if t.name = a.original_name then
        ⟨s.name,
         if s.units = none then t.units else s.units,
         if s.desc = none then t.desc else s.desc⟩
      else s)
    a.meta

/-! Concrete names, rules, validators and attribute descriptors used by
the counterexamples and witnesses below. -/

def nA : Name := "A"
def nB : Name := "B"
def nC : Name := "C"
def nD : Name := "D"
def nP : Name := "P"
def nX : Name := "X"
def nR : Name := "R"
def nRph : Name := "Rph"

/-- Rule `C <- (A, B)`, always producing 3. -/
def rC : DerivateRule := ⟨[nC], [nA, nB], fun _ => .num (some 3)⟩

/-- Rule `D <- (C)`, always producing 7. -/
def rD : DerivateRule := ⟨[nD], [nC], fun _ => .num (some 7)⟩

/-- Rule `X <- (A)`, always producing 1. -/
def rX1 : DerivateRule := ⟨[nX], [nA], fun _ => .num (some 1)⟩

/-- Rule `X <- (A)`, always producing 26/25 (within the default 5 percent
tolerance of 1). -/
def rX2 : DerivateRule := ⟨[nX], [nA], fun _ => .num (some (26/25))⟩

/-- Rule `X <- (P)`, always producing 26/25. -/
def rXP : DerivateRule := ⟨[nX], [nP], fun _ => .num (some (26/25))⟩

/-- Rule `P <- (A)`, always producing 1. -/
def rPA : DerivateRule := ⟨[nP], [nA], fun _ => .num (some 1)⟩

/-- A function returning a 3-tuple, registered below against 2 declared
output names. -/
def fTriple : List ℚ → PyVal := fun _ => .seq [some 1, some 2, some 3]

/-- Two declared outputs for `fTriple`. -/
def rBad : DerivateRule := ⟨[nA, nB], [nX], fTriple⟩

def descParent : String := "parent"
def descChild : String := "child"

/-- A validator declared on a parent class that always fails when its
argument is defined. -/
def vParent : Validator := ⟨[nP], fun _ => false, false, descParent⟩

/-- A validator declared on the child class that always passes. -/
def vChild : Validator := ⟨[nP], fun _ => true, false, descChild⟩

/-- Hierarchy `DeductorBase -> Parent -> Child` where both Parent and
Child define their own `_VALIDATORS`. -/
def framesPC : Frames := [some [], some [vParent], some [vChild]]

/-- An instance on which `P` is defined. -/
def mP : MInst := [(nP, some 1)]

def uOhm : String := "Ohm"
def dRes : String := "resistance"

/-- A base attribute `R` with units and description, declared on a parent
class (hence absent from the child's own `_ATTRIBUTES`). -/
def attrR : AttrMeta := ⟨nR, some uOhm, some dRes⟩

/-! Basic lemmas about lookup and the known-name set. -/

theorem lookupVar_isSome_iff_mem (vars : Vars) (n : Name) :
    (lookupVar vars n).isSome = true ↔ n ∈ vars.map Prod.fst := by
  induction vars with
  | nil => simp [lookupVar]
  | cons p rest ih =>
      simp only [lookupVar, List.find?_cons, List.map_cons, List.mem_cons]
      cases hb : (p.1 == n) with
      | true =>
          have he : p.1 = n := by simpa using hb
          simp [he]
      | false =>
          have he : ¬ p.1 = n := by simpa using hb
          simp only [lookupVar] at ih
          simp [ih, (Ne.symm he : n ≠ p.1)]

theorem lookupVar_isSome_iff (vars : Vars) (n : Name) :
    (lookupVar vars n).isSome = true ↔ n ∈ keysF vars := by
  rw [lookupVar_isSome_iff_mem, keysF, List.mem_toFinset]

theorem lookupVar_some_mem {vars : Vars} {n : Name} {q : ℚ}
    (h : lookupVar vars n = some q) : n ∈ keysF vars := by
  rw [← lookupVar_isSome_iff, h]
  rfl

theorem lookupVar_eq_none_iff (vars : Vars) (n : Name) :
    lookupVar vars n = none ↔ n ∉ keysF vars := by
  constructor
  · intro h hmem
    rw [← lookupVar_isSome_iff, h] at hmem
    exact Bool.noConfusion hmem
  · intro h
    cases hcase : lookupVar vars n with
    | none => rfl
    | some q => exact absurd (lookupVar_some_mem hcase) h

theorem keysF_append (vars : Vars) (p : Name × ℚ) :
    keysF (vars ++ [p]) = insert p.1 (keysF vars) := by
  simp only [keysF, List.map_append, List.map_cons, List.map_nil,
    List.toFinset_append, List.toFinset_cons, List.toFinset_nil,
    insert_emptyc_eq]
  rw [Finset.union_comm, ← Finset.insert_eq]

/-! Driver lemmas used to evaluate the engine on concrete inputs, and
shape lemmas about single steps. -/

theorem processOne_known (tol : ℚ) (st : DState) (name : Name) (q old : ℚ)
    (h : lookupVar st.vars name = some old) :
    processOne tol st name (.num (some q)) =
      if |q - old| > tol * max |old| |q| then
        .error (.contradiction name old q)
      else .ok st := by
  unfold processOne
  rw [h]

theorem processOne_confirm (tol : ℚ) (st : DState) (name : Name) (q old : ℚ)
    (h : lookupVar st.vars name = some old)
    (hc : ¬ (|q - old| > tol * max |old| |q|)) :
    processOne tol st name (.num (some q)) = .ok st := by
  rw [processOne_known tol st name q old h, if_neg hc]

theorem processOne_self (tol : ℚ) (st : DState) (name : Name) (q : ℚ)
    (htol : 0 ≤ tol) (h : lookupVar st.vars name = some q) :
    processOne tol st name (.num (some q)) = .ok st := by
  refine processOne_confirm tol st name q q h ?_
  simp only [sub_self, abs_zero, max_self, gt_iff_lt, not_lt]
  positivity

theorem foldR_cons_ok (tol : ℚ) (st st1 : DState) (r : DerivateRule)
    (rest : List DerivateRule) (h : applyRule tol st r = .ok st1) :
    foldR tol st (r :: rest) = foldR tol st1 rest := by
  simp [foldR, h]

theorem foldP_cons_ok (tol : ℚ) (st st1 : DState) (p : Name × PyVal)
    (rest : List (Name × PyVal)) (h : processOne tol st p.1 p.2 = .ok st1) :
    foldP tol st (p :: rest) = foldP tol st1 rest := by
  simp [foldP, h]

theorem applyRule_eval (tol : ℚ) (st : DState) (r : DerivateRule)
    (outs : List (Name × PyVal)) (h : r.call st.vars = .ok outs) :
    applyRule tol st r = foldP tol st outs := by
  simp [applyRule, h]

theorem deduceLoop_step (tol : ℚ) (rules : List DerivateRule) (fuel : ℕ)
    (vars : Vars) (n : ℕ) (st : DState) (hn : 0 < n)
    (hp : runPass tol rules vars = .ok st) :
    deduceLoop tol rules (fuel + 1) vars n =
      deduceLoop tol rules fuel st.vars st.count := by
  simp [deduceLoop, hn, hp]

theorem deduceLoop_done (tol : ℚ) (rules : List DerivateRule) (fuel : ℕ)
    (vars : Vars) (h : 1 ≤ fuel) :
    deduceLoop tol rules fuel vars 0 = .ok vars := by
  cases fuel with
  | zero => omega
  | succ k => simp [deduceLoop]

/-! Concrete tolerance comparisons used by the evaluation lemmas (the
kernel cannot reduce rational arithmetic, so these are settled once by
tactic). -/

theorem cond_up : ¬ (|(26:ℚ)/25 - 1| > (1/20) * max |(1:ℚ)| |(26:ℚ)/25|) := by
  rw [abs_of_nonneg (by norm_num : (0:ℚ) ≤ 26/25 - 1),
    abs_of_nonneg (by norm_num : (0:ℚ) ≤ 1),
    abs_of_nonneg (by norm_num : (0:ℚ) ≤ 26/25),
    max_eq_right (by norm_num : (1:ℚ) ≤ 26/25)]
  norm_num

theorem cond_dn : ¬ (|(1:ℚ) - 26/25| > (1/20) * max |(26:ℚ)/25| |(1:ℚ)|) := by
  rw [abs_of_nonpos (by norm_num : (1:ℚ) - 26/25 ≤ 0),
    abs_of_nonneg (by norm_num : (0:ℚ) ≤ 1),
    abs_of_nonneg (by norm_num : (0:ℚ) ≤ 26/25),
    max_eq_left (by norm_num : (1:ℚ) ≤ 26/25)]
  norm_num

theorem cond_boundary : ¬ (|(20:ℚ) - 19| > (1/20) * max |(19:ℚ)| |(20:ℚ)|) := by
  rw [abs_of_nonneg (by norm_num : (0:ℚ) ≤ 20 - 19),
    abs_of_nonneg (by norm_num : (0:ℚ) ≤ 19),
    abs_of_nonneg (by norm_num : (0:ℚ) ≤ 20),
    max_eq_right (by norm_num : (19:ℚ) ≤ 20)]
  norm_num

theorem cond_raise : |(21:ℚ) - 19| > (1/20) * max |(19:ℚ)| |(21:ℚ)| := by
  rw [abs_of_nonneg (by norm_num : (0:ℚ) ≤ 21 - 19),
    abs_of_nonneg (by norm_num : (0:ℚ) ≤ 19),
    abs_of_nonneg (by norm_num : (0:ℚ) ≤ 21),
    max_eq_right (by norm_num : (19:ℚ) ≤ 21)]
  norm_num

theorem applyRule_one_confirm (tol : ℚ) (st : DState) (name : Name)
    (q old : ℚ) (r : DerivateRule)
    (hc : r.call st.vars = .ok [(name, .num (some q))])
    (h : lookupVar st.vars name = some old)
    (hnc : ¬ (|q - old| > tol * max |old| |q|)) :
    applyRule tol st r = .ok st := by
  rw [applyRule_eval _ _ _ _ hc,
    foldP_cons_ok _ _ st _ [] (processOne_confirm _ _ _ _ _ h hnc)]
  rfl

theorem applyRule_one_self (tol : ℚ) (st : DState) (name : Name) (q : ℚ)
    (r : DerivateRule) (htol : 0 ≤ tol)
    (hc : r.call st.vars = .ok [(name, .num (some q))])
    (h : lookupVar st.vars name = some q) :
    applyRule tol st r = .ok st := by
  rw [applyRule_eval _ _ _ _ hc,
    foldP_cons_ok _ _ st _ [] (processOne_self _ _ _ _ htol h)]
  rfl

theorem runPass1 (tol : ℚ) (r1 : DerivateRule) (vars : Vars) (st1 : DState)
    (h1 : applyRule tol ⟨vars, 0⟩ r1 = .ok st1) :
    runPass tol [r1] vars = .ok st1 := by
  show foldR tol ⟨vars, 0⟩ [r1] = _
  rw [foldR_cons_ok _ _ _ _ _ h1]
  rfl

theorem runPass2 (tol : ℚ) (r1 r2 : DerivateRule) (vars : Vars)
    (st1 st2 : DState) (h1 : applyRule tol ⟨vars, 0⟩ r1 = .ok st1)
    (h2 : applyRule tol st1 r2 = .ok st2) :
    runPass tol [r1, r2] vars = .ok st2 := by
  show foldR tol ⟨vars, 0⟩ [r1, r2] = _
  rw [foldR_cons_ok _ _ _ _ _ h1, foldR_cons_ok _ _ _ _ _ h2]
  rfl

theorem runPass3 (tol : ℚ) (r1 r2 r3 : DerivateRule) (vars : Vars)
    (st1 st2 st3 : DState) (h1 : applyRule tol ⟨vars, 0⟩ r1 = .ok st1)
    (h2 : applyRule tol st1 r2 = .ok st2)
    (h3 : applyRule tol st2 r3 = .ok st3) :
    runPass tol [r1, r2, r3] vars = .ok st3 := by
  show foldR tol ⟨vars, 0⟩ [r1, r2, r3] = _
  rw [foldR_cons_ok _ _ _ _ _ h1, foldR_cons_ok _ _ _ _ _ h2,
    foldR_cons_ok _ _ _ _ _ h3]
  rfl

/-! Concrete evaluations of the engine, used by counterexamples and
witnesses below. -/

theorem eval_order1 :
    deduce (1/20) [nA] [rX1, rX2] [(nA, 5)] = .ok [(nA, 5), (nX, 1)] := by
  have a1 : applyRule (1/20) ⟨[(nA, 5)], 0⟩ rX1 =
      .ok ⟨[(nA, 5), (nX, 1)], 1⟩ := rfl
  have a2 : applyRule (1/20) ⟨[(nA, 5), (nX, 1)], 1⟩ rX2 =
      .ok ⟨[(nA, 5), (nX, 1)], 1⟩ := by
    rw [applyRule_eval (1/20) ⟨[(nA, 5), (nX, 1)], 1⟩ rX2
          [(nX, .num (some (26/25)))] rfl,
      foldP_cons_ok (1/20) ⟨[(nA, 5), (nX, 1)], 1⟩ ⟨[(nA, 5), (nX, 1)], 1⟩
        (nX, .num (some (26/25))) []
        (processOne_confirm (1/20) ⟨[(nA, 5), (nX, 1)], 1⟩ nX (26/25) 1
          rfl cond_up)]
    rfl
  have hp1 : runPass (1/20) [rX1, rX2] [(nA, 5)] =
      .ok ⟨[(nA, 5), (nX, 1)], 1⟩ := by
    show foldR (1/20) ⟨[(nA, 5)], 0⟩ [rX1, rX2] = _
    rw [foldR_cons_ok (1/20) ⟨[(nA, 5)], 0⟩ ⟨[(nA, 5), (nX, 1)], 1⟩ rX1 [rX2] a1,
      foldR_cons_ok (1/20) ⟨[(nA, 5), (nX, 1)], 1⟩ ⟨[(nA, 5), (nX, 1)], 1⟩
        rX2 [] a2]
    rfl
  have b2 : applyRule (1/20) ⟨[(nA, 5), (nX, 1)], 0⟩ rX2 =
      .ok ⟨[(nA, 5), (nX, 1)], 0⟩ := by
    rw [applyRule_eval (1/20) ⟨[(nA, 5), (nX, 1)], 0⟩ rX2
          [(nX, .num (some (26/25)))] rfl,
      foldP_cons_ok (1/20) ⟨[(nA, 5), (nX, 1)], 0⟩ ⟨[(nA, 5), (nX, 1)], 0⟩
        (nX, .num (some (26/25))) []
        (processOne_confirm (1/20) ⟨[(nA, 5), (nX, 1)], 0⟩ nX (26/25) 1
          rfl cond_up)]
    rfl
  have b1 : applyRule (1/20) ⟨[(nA, 5), (nX, 1)], 0⟩ rX1 =
      .ok ⟨[(nA, 5), (nX, 1)], 0⟩ := by
    rw [applyRule_eval (1/20) ⟨[(nA, 5), (nX, 1)], 0⟩ rX1
          [(nX, .num (some 1))] rfl,
      foldP_cons_ok (1/20) ⟨[(nA, 5), (nX, 1)], 0⟩ ⟨[(nA, 5), (nX, 1)], 0⟩
        (nX, .num (some 1)) []
        (processOne_self (1/20) ⟨[(nA, 5), (nX, 1)], 0⟩ nX 1 (by norm_num) rfl)]
    rfl
  have hp2 : runPass (1/20) [rX1, rX2] [(nA, 5), (nX, 1)] =
      .ok ⟨[(nA, 5), (nX, 1)], 0⟩ := by
    show foldR (1/20) ⟨[(nA, 5), (nX, 1)], 0⟩ [rX1, rX2] = _
    rw [foldR_cons_ok (1/20) ⟨[(nA, 5), (nX, 1)], 0⟩ ⟨[(nA, 5), (nX, 1)], 0⟩
        rX1 [rX2] b1,
      foldR_cons_ok (1/20) ⟨[(nA, 5), (nX, 1)], 0⟩ ⟨[(nA, 5), (nX, 1)], 0⟩
        rX2 [] b2]
    rfl
  show deduceLoop (1/20) [rX1, rX2] 4 [(nA, 5)] 1 = .ok [(nA, 5), (nX, 1)]
  rw [(deduceLoop_step (1/20) [rX1, rX2] 3 [(nA, 5)] 1
        ⟨[(nA, 5), (nX, 1)], 1⟩ (by norm_num) hp1 :
        deduceLoop (1/20) [rX1, rX2] 4 [(nA, 5)] 1 = _),
    (deduceLoop_step (1/20) [rX1, rX2] 2 [(nA, 5), (nX, 1)] 1
        ⟨[(nA, 5), (nX, 1)], 0⟩ (by norm_num) hp2 :
        deduceLoop (1/20) [rX1, rX2] 3 [(nA, 5), (nX, 1)] 1 = _)]
  exact deduceLoop_done (1/20) [rX1, rX2] 2 [(nA, 5), (nX, 1)] (by norm_num)

theorem eval_order2 :
    deduce (1/20) [nA] [rX2, rX1] [(nA, 5)] = .ok [(nA, 5), (nX, 26/25)] := by
  have a1 : applyRule (1/20) ⟨[(nA, 5)], 0⟩ rX2 =
      .ok ⟨[(nA, 5), (nX, 26/25)], 1⟩ := rfl
  have a2 : applyRule (1/20) ⟨[(nA, 5), (nX, 26/25)], 1⟩ rX1 =
      .ok ⟨[(nA, 5), (nX, 26/25)], 1⟩ :=
    applyRule_one_confirm (1/20) ⟨[(nA, 5), (nX, 26/25)], 1⟩ nX 1 (26/25)
      rX1 rfl rfl cond_dn
  have hp1 := runPass2 (1/20) rX2 rX1 [(nA, 5)] _ _ a1 a2
  have b1 : applyRule (1/20) ⟨[(nA, 5), (nX, 26/25)], 0⟩ rX2 =
      .ok ⟨[(nA, 5), (nX, 26/25)], 0⟩ :=
    applyRule_one_self (1/20) ⟨[(nA, 5), (nX, 26/25)], 0⟩ nX (26/25) rX2
      (by norm_num) rfl rfl
  have b2 : applyRule (1/20) ⟨[(nA, 5), (nX, 26/25)], 0⟩ rX1 =
      .ok ⟨[(nA, 5), (nX, 26/25)], 0⟩ :=
    applyRule_one_confirm (1/20) ⟨[(nA, 5), (nX, 26/25)], 0⟩ nX 1 (26/25)
      rX1 rfl rfl cond_dn
  have hp2 := runPass2 (1/20) rX2 rX1 [(nA, 5), (nX, 26/25)] _ _ b1 b2
  show deduceLoop (1/20) [rX2, rX1] 4 [(nA, 5)] 1 = .ok [(nA, 5), (nX, 26/25)]
  rw [(deduceLoop_step (1/20) [rX2, rX1] 3 [(nA, 5)] 1
        ⟨[(nA, 5), (nX, 26/25)], 1⟩ (by norm_num) hp1 :
        deduceLoop (1/20) [rX2, rX1] 4 [(nA, 5)] 1 = _),
    (deduceLoop_step (1/20) [rX2, rX1] 2 [(nA, 5), (nX, 26/25)] 1
        ⟨[(nA, 5), (nX, 26/25)], 0⟩ (by norm_num) hp2 :
        deduceLoop (1/20) [rX2, rX1] 3 [(nA, 5), (nX, 26/25)] 1 = _)]
  exact deduceLoop_done (1/20) [rX2, rX1] 2 [(nA, 5), (nX, 26/25)] (by norm_num)

theorem eval_seedAB :
    deduce (1/20) [nA, nB] [rC] [(nA, 1), (nB, 2)] =
      .ok [(nA, 1), (nB, 2), (nC, 3)] := by
  have a1 : applyRule (1/20) ⟨[(nA, 1), (nB, 2)], 0⟩ rC =
      .ok ⟨[(nA, 1), (nB, 2), (nC, 3)], 1⟩ := rfl
  have hp1 := runPass1 (1/20) rC [(nA, 1), (nB, 2)] _ a1
  have b1 : applyRule (1/20) ⟨[(nA, 1), (nB, 2), (nC, 3)], 0⟩ rC =
      .ok ⟨[(nA, 1), (nB, 2), (nC, 3)], 0⟩ :=
    applyRule_one_self (1/20) ⟨[(nA, 1), (nB, 2), (nC, 3)], 0⟩ nC 3 rC
      (by norm_num) rfl rfl
  have hp2 := runPass1 (1/20) rC [(nA, 1), (nB, 2), (nC, 3)] _ b1
  show deduceLoop (1/20) [rC] 3 [(nA, 1), (nB, 2)] 2 =
    .ok [(nA, 1), (nB, 2), (nC, 3)]
  rw [(deduceLoop_step (1/20) [rC] 2 [(nA, 1), (nB, 2)] 2
        ⟨[(nA, 1), (nB, 2), (nC, 3)], 1⟩ (by norm_num) hp1 :
        deduceLoop (1/20) [rC] 3 [(nA, 1), (nB, 2)] 2 = _),
    (deduceLoop_step (1/20) [rC] 1 [(nA, 1), (nB, 2), (nC, 3)] 1
        ⟨[(nA, 1), (nB, 2), (nC, 3)], 0⟩ (by norm_num) hp2 :
        deduceLoop (1/20) [rC] 2 [(nA, 1), (nB, 2), (nC, 3)] 1 = _)]
  exact deduceLoop_done (1/20) [rC] 1 [(nA, 1), (nB, 2), (nC, 3)] (by norm_num)

theorem eval_seedABC :
    deduce (1/20) [nA, nB] [rC] [(nA, 1), (nB, 2), (nC, 3)] =
      .error (.unknownVariable nC) := rfl

theorem eval_c7b1 :
    deduce (1/20) [nA] [rXP, rX1, rPA] [(nA, 1)] =
      .ok [(nA, 1), (nX, 1), (nP, 1)] := by
  have a1 : applyRule (1/20) ⟨[(nA, 1)], 0⟩ rXP = .ok ⟨[(nA, 1)], 0⟩ := rfl
  have a2 : applyRule (1/20) ⟨[(nA, 1)], 0⟩ rX1 =
      .ok ⟨[(nA, 1), (nX, 1)], 1⟩ := rfl
  have a3 : applyRule (1/20) ⟨[(nA, 1), (nX, 1)], 1⟩ rPA =
      .ok ⟨[(nA, 1), (nX, 1), (nP, 1)], 2⟩ := rfl
  have hp1 := runPass3 (1/20) rXP rX1 rPA [(nA, 1)] _ _ _ a1 a2 a3
  have b1 : applyRule (1/20) ⟨[(nA, 1), (nX, 1), (nP, 1)], 0⟩ rXP =
      .ok ⟨[(nA, 1), (nX, 1), (nP, 1)], 0⟩ :=
    applyRule_one_confirm (1/20) ⟨[(nA, 1), (nX, 1), (nP, 1)], 0⟩ nX
      (26/25) 1 rXP rfl rfl cond_up
  have b2 : applyRule (1/20) ⟨[(nA, 1), (nX, 1), (nP, 1)], 0⟩ rX1 =
      .ok ⟨[(nA, 1), (nX, 1), (nP, 1)], 0⟩ :=
    applyRule_one_self (1/20) ⟨[(nA, 1), (nX, 1), (nP, 1)], 0⟩ nX 1 rX1
      (by norm_num) rfl rfl
  have b3 : applyRule (1/20) ⟨[(nA, 1), (nX, 1), (nP, 1)], 0⟩ rPA =
      .ok ⟨[(nA, 1), (nX, 1), (nP, 1)], 0⟩ :=
    applyRule_one_self (1/20) ⟨[(nA, 1), (nX, 1), (nP, 1)], 0⟩ nP 1 rPA
      (by norm_num) rfl rfl
  have hp2 := runPass3 (1/20) rXP rX1 rPA [(nA, 1), (nX, 1), (nP, 1)]
    _ _ _ b1 b2 b3
  show deduceLoop (1/20) [rXP, rX1, rPA] 5 [(nA, 1)] 1 =
    .ok [(nA, 1), (nX, 1), (nP, 1)]
  rw [(deduceLoop_step (1/20) [rXP, rX1, rPA] 4 [(nA, 1)] 1
        ⟨[(nA, 1), (nX, 1), (nP, 1)], 2⟩ (by norm_num) hp1 :
        deduceLoop (1/20) [rXP, rX1, rPA] 5 [(nA, 1)] 1 = _),
    (deduceLoop_step (1/20) [rXP, rX1, rPA] 3 [(nA, 1), (nX, 1), (nP, 1)] 2
        ⟨[(nA, 1), (nX, 1), (nP, 1)], 0⟩ (by norm_num) hp2 :
        deduceLoop (1/20) [rXP, rX1, rPA] 4 [(nA, 1), (nX, 1), (nP, 1)] 2 = _)]
  exact deduceLoop_done (1/20) [rXP, rX1, rPA] 3 [(nA, 1), (nX, 1), (nP, 1)]
    (by norm_num)

theorem eval_c7b2 :
    deduce (1/20) [nA] [rXP, rX1, rPA] [(nA, 1), (nP, 1)] =
      .ok [(nA, 1), (nP, 1), (nX, 26/25)] := by
  have a1 : applyRule (1/20) ⟨[(nA, 1), (nP, 1)], 0⟩ rXP =
      .ok ⟨[(nA, 1), (nP, 1), (nX, 26/25)], 1⟩ := rfl
  have a2 : applyRule (1/20) ⟨[(nA, 1), (nP, 1), (nX, 26/25)], 1⟩ rX1 =
      .ok ⟨[(nA, 1), (nP, 1), (nX, 26/25)], 1⟩ :=
    applyRule_one_confirm (1/20) ⟨[(nA, 1), (nP, 1), (nX, 26/25)], 1⟩ nX
      1 (26/25) rX1 rfl rfl cond_dn
  have a3 : applyRule (1/20) ⟨[(nA, 1), (nP, 1), (nX, 26/25)], 1⟩ rPA =
      .ok ⟨[(nA, 1), (nP, 1), (nX, 26/25)], 1⟩ :=
    applyRule_one_self (1/20) ⟨[(nA, 1), (nP, 1), (nX, 26/25)], 1⟩ nP 1 rPA
      (by norm_num) rfl rfl
  have hp1 := runPass3 (1/20) rXP rX1 rPA [(nA, 1), (nP, 1)] _ _ _ a1 a2 a3
  have b1 : applyRule (1/20) ⟨[(nA, 1), (nP, 1), (nX, 26/25)], 0⟩ rXP =
      .ok ⟨[(nA, 1), (nP, 1), (nX, 26/25)], 0⟩ :=
    applyRule_one_self (1/20) ⟨[(nA, 1), (nP, 1), (nX, 26/25)], 0⟩ nX
      (26/25) rXP (by norm_num) rfl rfl
  have b2 : applyRule (1/20) ⟨[(nA, 1), (nP, 1), (nX, 26/25)], 0⟩ rX1 =
      .ok ⟨[(nA, 1), (nP, 1), (nX, 26/25)], 0⟩ :=
    applyRule_one_confirm (1/20) ⟨[(nA, 1), (nP, 1), (nX, 26/25)], 0⟩ nX
      1 (26/25) rX1 rfl rfl cond_dn
  have b3 : applyRule (1/20) ⟨[(nA, 1), (nP, 1), (nX, 26/25)], 0⟩ rPA =
      .ok ⟨[(nA, 1), (nP, 1), (nX, 26/25)], 0⟩ :=
    applyRule_one_self (1/20) ⟨[(nA, 1), (nP, 1), (nX, 26/25)], 0⟩ nP 1 rPA
      (by norm_num) rfl rfl
  have hp2 := runPass3 (1/20) rXP rX1 rPA [(nA, 1), (nP, 1), (nX, 26/25)]
    _ _ _ b1 b2 b3
  show deduceLoop (1/20) [rXP, rX1, rPA] 5 [(nA, 1), (nP, 1)] 2 =
    .ok [(nA, 1), (nP, 1), (nX, 26/25)]
  rw [(deduceLoop_step (1/20) [rXP, rX1, rPA] 4 [(nA, 1), (nP, 1)] 2
        ⟨[(nA, 1), (nP, 1), (nX, 26/25)], 1⟩ (by norm_num) hp1 :
        deduceLoop (1/20) [rXP, rX1, rPA] 5 [(nA, 1), (nP, 1)] 2 = _),
    (deduceLoop_step (1/20) [rXP, rX1, rPA] 3
        [(nA, 1), (nP, 1), (nX, 26/25)] 1
        ⟨[(nA, 1), (nP, 1), (nX, 26/25)], 0⟩ (by norm_num) hp2 :
        deduceLoop (1/20) [rXP, rX1, rPA] 4
          [(nA, 1), (nP, 1), (nX, 26/25)] 1 = _)]
  exact deduceLoop_done (1/20) [rXP, rX1, rPA] 3
    [(nA, 1), (nP, 1), (nX, 26/25)] (by norm_num)

theorem eval_cd1 :
    deduce (1/20) [nA, nB] [rC, rD] [(nA, 1), (nB, 2)] =
      .ok [(nA, 1), (nB, 2), (nC, 3), (nD, 7)] := by
  have a1 : applyRule (1/20) ⟨[(nA, 1), (nB, 2)], 0⟩ rC =
      .ok ⟨[(nA, 1), (nB, 2), (nC, 3)], 1⟩ := rfl
  have a2 : applyRule (1/20) ⟨[(nA, 1), (nB, 2), (nC, 3)], 1⟩ rD =
      .ok ⟨[(nA, 1), (nB, 2), (nC, 3), (nD, 7)], 2⟩ := rfl
  have hp1 := runPass2 (1/20) rC rD [(nA, 1), (nB, 2)] _ _ a1 a2
  have b1 : applyRule (1/20) ⟨[(nA, 1), (nB, 2), (nC, 3), (nD, 7)], 0⟩ rC =
      .ok ⟨[(nA, 1), (nB, 2), (nC, 3), (nD, 7)], 0⟩ :=
    applyRule_one_self (1/20) ⟨[(nA, 1), (nB, 2), (nC, 3), (nD, 7)], 0⟩
      nC 3 rC (by norm_num) rfl rfl
  have b2 : applyRule (1/20) ⟨[(nA, 1), (nB, 2), (nC, 3), (nD, 7)], 0⟩ rD =
      .ok ⟨[(nA, 1), (nB, 2), (nC, 3), (nD, 7)], 0⟩ :=
    applyRule_one_self (1/20) ⟨[(nA, 1), (nB, 2), (nC, 3), (nD, 7)], 0⟩
      nD 7 rD (by norm_num) rfl rfl
  have hp2 := runPass2 (1/20) rC rD [(nA, 1), (nB, 2), (nC, 3), (nD, 7)]
    _ _ b1 b2
  show deduceLoop (1/20) [rC, rD] 4 [(nA, 1), (nB, 2)] 2 =
    .ok [(nA, 1), (nB, 2), (nC, 3), (nD, 7)]
  rw [(deduceLoop_step (1/20) [rC, rD] 3 [(nA, 1), (nB, 2)] 2
        ⟨[(nA, 1), (nB, 2), (nC, 3), (nD, 7)], 2⟩ (by norm_num) hp1 :
        deduceLoop (1/20) [rC, rD] 4 [(nA, 1), (nB, 2)] 2 = _),
    (deduceLoop_step (1/20) [rC, rD] 2
        [(nA, 1), (nB, 2), (nC, 3), (nD, 7)] 2
        ⟨[(nA, 1), (nB, 2), (nC, 3), (nD, 7)], 0⟩ (by norm_num) hp2 :
        deduceLoop (1/20) [rC, rD] 3
          [(nA, 1), (nB, 2), (nC, 3), (nD, 7)] 2 = _)]
  exact deduceLoop_done (1/20) [rC, rD] 2
    [(nA, 1), (nB, 2), (nC, 3), (nD, 7)] (by norm_num)

theorem eval_cd2 :
    deduce (1/20) [nA, nB] [rC, rD] [(nA, 1), (nB, 2), (nC, 3)] =
      .ok [(nA, 1), (nB, 2), (nC, 3), (nD, 7)] := by
  have a1 : applyRule (1/20) ⟨[(nA, 1), (nB, 2), (nC, 3)], 0⟩ rC =
      .ok ⟨[(nA, 1), (nB, 2), (nC, 3)], 0⟩ :=
    applyRule_one_self (1/20) ⟨[(nA, 1), (nB, 2), (nC, 3)], 0⟩ nC 3 rC
      (by norm_num) rfl rfl
  have a2 : applyRule (1/20) ⟨[(nA, 1), (nB, 2), (nC, 3)], 0⟩ rD =
      .ok ⟨[(nA, 1), (nB, 2), (nC, 3), (nD, 7)], 1⟩ := rfl
  have hp1 := runPass2 (1/20) rC rD [(nA, 1), (nB, 2), (nC, 3)] _ _ a1 a2
  have b1 : applyRule (1/20) ⟨[(nA, 1), (nB, 2), (nC, 3), (nD, 7)], 0⟩ rC =
      .ok ⟨[(nA, 1), (nB, 2), (nC, 3), (nD, 7)], 0⟩ :=
    applyRule_one_self (1/20) ⟨[(nA, 1), (nB, 2), (nC, 3), (nD, 7)], 0⟩
      nC 3 rC (by norm_num) rfl rfl
  have b2 : applyRule (1/20) ⟨[(nA, 1), (nB, 2), (nC, 3), (nD, 7)], 0⟩ rD =
      .ok ⟨[(nA, 1), (nB, 2), (nC, 3), (nD, 7)], 0⟩ :=
    applyRule_one_self (1/20) ⟨[(nA, 1), (nB, 2), (nC, 3), (nD, 7)], 0⟩
      nD 7 rD (by norm_num) rfl rfl
  have hp2 := runPass2 (1/20) rC rD [(nA, 1), (nB, 2), (nC, 3), (nD, 7)]
    _ _ b1 b2
  show deduceLoop (1/20) [rC, rD] 4 [(nA, 1), (nB, 2), (nC, 3)] 3 =
    .ok [(nA, 1), (nB, 2), (nC, 3), (nD, 7)]
  rw [(deduceLoop_step (1/20) [rC, rD] 3 [(nA, 1), (nB, 2), (nC, 3)] 3
        ⟨[(nA, 1), (nB, 2), (nC, 3), (nD, 7)], 1⟩ (by norm_num) hp1 :
        deduceLoop (1/20) [rC, rD] 4 [(nA, 1), (nB, 2), (nC, 3)] 3 = _),
    (deduceLoop_step (1/20) [rC, rD] 2
        [(nA, 1), (nB, 2), (nC, 3), (nD, 7)] 1
        ⟨[(nA, 1), (nB, 2), (nC, 3), (nD, 7)], 0⟩ (by norm_num) hp2 :
        deduceLoop (1/20) [rC, rD] 3
          [(nA, 1), (nB, 2), (nC, 3), (nD, 7)] 1 = _)]
  exact deduceLoop_done (1/20) [rC, rD] 2
    [(nA, 1), (nB, 2), (nC, 3), (nD, 7)] (by norm_num)

/-! Step-relation machinery for the deduction loop. -/

theorem stepR_refl (A : Finset Name) (st : DState) : StepR A st st :=
  ⟨le_refl _, Finset.Subset.refl _, fun _ hx => Or.inl hx, fun _ => rfl,
    fun hlt => absurd hlt (lt_irrefl _)⟩

theorem stepR_trans {A : Finset Name} {st1 st2 st3 : DState}
    (h1 : StepR A st1 st2) (h2 : StepR A st2 st3) : StepR A st1 st3 := by
  obtain ⟨c1, k1, a1, e1, l1⟩ := h1
  obtain ⟨c2, k2, a2, e2, l2⟩ := h2
  refine ⟨le_trans c1 c2, Finset.Subset.trans k1 k2, ?_, ?_, ?_⟩
  · intro x hx
    rcases a2 x hx with h | h
    · exact a1 x h
    · exact Or.inr h
  · intro he
    have hc2 : st2.count = st1.count := le_antisymm (he ▸ c2) c1
    have hst2 : st2 = st1 := e1 hc2
    exact (e2 (by rw [hst2, he])).trans hst2
  · intro hlt
    rcases lt_or_eq_of_le c1 with h | h
    · exact lt_of_lt_of_le (l1 h) (Finset.le_iff_subset.mpr k2)
    · have hst2 : st2 = st1 := e1 h.symm
      rw [← hst2]
      exact l2 (by rw [hst2]; exact hlt)

theorem stepR_mono {A B : Finset Name} {st st2 : DState} (hAB : A ⊆ B)
    (h : StepR A st st2) : StepR B st st2 := by
  obtain ⟨c1, k1, a1, e1, l1⟩ := h
  exact ⟨c1, k1, fun x hx => (a1 x hx).imp id (fun hmem => hAB hmem), e1, l1⟩

/-- Case analysis of a successful `processOne`: either the value confirmed
an existing entry and the state is unchanged, or a genuinely new entry was
appended and the counter incremented. -/
theorem processOne_ok_cases {tol : ℚ} {st : DState} {name : Name}
    {v : PyVal} {st2 : DState} (h : processOne tol st name v = .ok st2) :
    (st2 = st ∧ name ∈ keysF st.vars) ∨
    (∃ q, v = .num (some q) ∧ lookupVar st.vars name = none ∧
      st2 = ⟨st.vars ++ [(name, q)], st.count + 1⟩) := by
  cases v with
  | seq l => exact absurd h (by simp [processOne])
  | num o =>
      cases o with
      | none => exact absurd h (by simp [processOne])
      | some q =>
          cases hl : lookupVar st.vars name with
          | none =>
              simp only [processOne, hl, Except.ok.injEq] at h
              exact Or.inr ⟨q, rfl, rfl, h.symm⟩
          | some old =>
              simp only [processOne, hl] at h
              by_cases hc : |q - old| > tol * max |old| |q|
              · rw [if_pos hc] at h
                exact absurd h (by simp)
              · rw [if_neg hc] at h
                simp only [Except.ok.injEq] at h
                exact Or.inl ⟨h.symm, lookupVar_some_mem hl⟩

theorem processOne_stepR {tol : ℚ} {st : DState} {name : Name} {v : PyVal}
    {st2 : DState} (h : processOne tol st name v = .ok st2) :
    StepR {name} st st2 := by
  rcases processOne_ok_cases h with ⟨heq, _⟩ | ⟨q, _, hnone, heq⟩
  · exact heq ▸ stepR_refl _ _
  · subst heq
    have hnotin : name ∉ keysF st.vars := (lookupVar_eq_none_iff _ _).mp hnone
    refine ⟨by simp, ?_, ?_, ?_, ?_⟩
    · rw [keysF_append]
      exact Finset.subset_insert _ _
    · intro x hx
      rw [keysF_append] at hx
      rcases Finset.mem_insert.mp hx with hx | hx
      · exact Or.inr (by simp [hx])
      · exact Or.inl hx
    · intro hc
      exact absurd hc (by simp)
    · intro _
      rw [keysF_append]
      exact Finset.ssubset_insert hnotin

theorem foldP_stepR {tol : ℚ} {l : List (Name × PyVal)} :
    ∀ {st st2 : DState}, foldP tol st l = .ok st2 →
      StepR ((l.map Prod.fst).toFinset) st st2 := by
  induction l with
  | nil =>
      intro st st2 h
      simp only [foldP, Except.ok.injEq] at h
      exact h ▸ stepR_refl _ _
  | cons p rest ih =>
      intro st st2 h
      unfold foldP at h
      cases hpo : processOne tol st p.1 p.2 with
      | error e => rw [hpo] at h; exact absurd h (by simp)
      | ok st1 =>
          rw [hpo] at h
          have h1 : StepR ((p :: rest).map Prod.fst).toFinset st st1 :=
            stepR_mono (by simp) (processOne_stepR hpo)
          have h2 : StepR ((p :: rest).map Prod.fst).toFinset st1 st2 :=
            stepR_mono (by intro x hx; simp at hx ⊢; tauto) (ih h)
          exact stepR_trans h1 h2

/-- A successful rule call only yields declared output names, and if it
yields anything at all then every input was known. -/
theorem call_ok_mem_strong {r : DerivateRule} {vars : Vars}
    {outs : List (Name × PyVal)} (h : r.call vars = .ok outs) :
    ∀ p ∈ outs, p.1 ∈ r.out_vars ∧ ∀ i ∈ r.in_vars, i ∈ keysF vars := by
  intro p hp
  by_cases hguard : (r.in_vars.all fun n => (lookupVar vars n).isSome) = true
  case neg =>
      unfold DerivateRule.call at h
      rw [if_neg hguard] at h
      simp only [Except.ok.injEq] at h
      rw [← h] at hp
      exact absurd hp (List.not_mem_nil p)
  case pos =>
      have hin : ∀ i ∈ r.in_vars, i ∈ keysF vars := by
        intro i hi
        rw [← lookupVar_isSome_iff]
        exact List.all_eq_true.mp hguard i hi
      refine ⟨?_, hin⟩
      unfold DerivateRule.call at h
      rw [if_pos hguard] at h
      rcases hov : r.out_vars with _ | ⟨o, tail⟩
      · rw [hov] at h
        cases hres : r.func (r.in_vars.map (fun n => (lookupVar vars n).getD 0)) with
        | num x => rw [hres] at h; simp at h
        | seq l =>
            rw [hres] at h
            simp only [] at h
            by_cases hlen : ([] : List Name).length = l.length
            · rw [if_pos hlen] at h
              simp only [Except.ok.injEq] at h
              rw [← h] at hp
              exact absurd hp (List.not_mem_nil p)
            · rw [if_neg hlen] at h
              simp at h
      · cases tail with
        | nil =>
            rw [hov] at h
            simp only [Except.ok.injEq] at h
            rw [← h] at hp
            simp only [List.mem_singleton] at hp
            rw [hp]
            simp
        | cons o2 tail2 =>
            rw [hov] at h
            cases hres : r.func (r.in_vars.map (fun n => (lookupVar vars n).getD 0)) with
            | num x => rw [hres] at h; simp at h
            | seq l =>
                rw [hres] at h
                simp only [] at h
                by_cases hlen : (o :: o2 :: tail2).length = l.length
                · rw [if_pos hlen] at h
                  simp only [Except.ok.injEq] at h
                  rw [← h] at hp
                  obtain ⟨pn, pv⟩ := p
                  exact (List.of_mem_zip hp).1
                · rw [if_neg hlen] at h
                  simp at h

theorem applyRule_stepR {tol : ℚ} {st st2 : DState} {r : DerivateRule}
    (h : applyRule tol st r = .ok st2) : StepR r.out_vars.toFinset st st2 := by
  unfold applyRule at h
  cases hc : r.call st.vars with
  | error e => rw [hc] at h; exact absurd h (by simp)
  | ok outs =>
      rw [hc] at h
      refine stepR_mono ?_ (foldP_stepR h)
      intro x hx
      simp only [List.mem_toFinset, List.mem_map] at hx
      obtain ⟨p, hp, hpx⟩ := hx
      rw [List.mem_toFinset, ← hpx]
      exact (call_ok_mem_strong hc p hp).1

theorem allOutF_cons (r : DerivateRule) (rest : List DerivateRule) :
    allOutF (r :: rest) = r.out_vars.toFinset ∪ allOutF rest := by
  simp [allOutF, List.toFinset_append]

theorem foldR_stepR {tol : ℚ} {l : List DerivateRule} :
    ∀ {st st2 : DState}, foldR tol st l = .ok st2 → StepR (allOutF l) st st2 := by
  induction l with
  | nil =>
      intro st st2 h
      simp only [foldR, Except.ok.injEq] at h
      exact h ▸ stepR_refl _ _
  | cons r rest ih =>
      intro st st2 h
      unfold foldR at h
      cases ha : applyRule tol st r with
      | error e => rw [ha] at h; exact absurd h (by simp)
      | ok st1 =>
          rw [ha] at h
          have h1 : StepR (allOutF (r :: rest)) st st1 :=
            stepR_mono (by rw [allOutF_cons]; exact Finset.subset_union_left)
              (applyRule_stepR ha)
          have h2 : StepR (allOutF (r :: rest)) st1 st2 :=
            stepR_mono (by rw [allOutF_cons]; exact Finset.subset_union_right)
              (ih h)
          exact stepR_trans h1 h2

theorem runPass_stepR {tol : ℚ} {rules : List DerivateRule} {vars : Vars}
    {st2 : DState} (h : runPass tol rules vars = .ok st2) :
    StepR (allOutF rules) ⟨vars, 0⟩ st2 :=
  foldR_stepR h

/-! Classification of the errors a pass can raise: never the fuel marker
and never `unknownVariable` (those arise only outside the pass). -/

theorem processOne_err {tol : ℚ} {st : DState} {name : Name} {v : PyVal}
    {e : DeduceErr} (h : processOne tol st name v = .error e) :
    e ≠ .fuelExceeded ∧ ∀ m, e ≠ .unknownVariable m := by
  cases v with
  | seq l =>
      simp only [processOne, Except.error.injEq] at h
      simp [← h]
  | num o =>
      cases o with
      | none =>
          simp only [processOne, Except.error.injEq] at h
          simp [← h]
      | some q =>
          cases hl : lookupVar st.vars name with
          | none => simp [processOne, hl] at h
          | some old =>
              simp only [processOne, hl] at h
              by_cases hc : |q - old| > tol * max |old| |q|
              · rw [if_pos hc] at h
                simp only [Except.error.injEq] at h
                simp [← h]
              · rw [if_neg hc] at h
                simp at h

theorem foldP_err {tol : ℚ} {l : List (Name × PyVal)} :
    ∀ {st : DState} {e : DeduceErr}, foldP tol st l = .error e →
      e ≠ .fuelExceeded ∧ ∀ m, e ≠ .unknownVariable m := by
  induction l with
  | nil => intro st e h; simp [foldP] at h
  | cons p rest ih =>
      intro st e h
      unfold foldP at h
      cases hpo : processOne tol st p.1 p.2 with
      | error e2 =>
          rw [hpo] at h
          simp only [Except.error.injEq] at h
          exact h ▸ processOne_err hpo
      | ok st1 =>
          rw [hpo] at h
          exact ih h

theorem applyRule_err {tol : ℚ} {st : DState} {r : DerivateRule}
    {e : DeduceErr} (h : applyRule tol st r = .error e) :
    e ≠ .fuelExceeded ∧ ∀ m, e ≠ .unknownVariable m := by
  unfold applyRule at h
  cases hc : r.call st.vars with
  | error e2 =>
      rw [hc] at h
      simp only [Except.error.injEq] at h
      simp [← h]
  | ok outs =>
      rw [hc] at h
      exact foldP_err h

theorem foldR_err {tol : ℚ} {l : List DerivateRule} :
    ∀ {st : DState} {e : DeduceErr}, foldR tol st l = .error e →
      e ≠ .fuelExceeded ∧ ∀ m, e ≠ .unknownVariable m := by
  induction l with
  | nil => intro st e h; simp [foldR] at h
  | cons r rest ih =>
      intro st e h
      unfold foldR at h
      cases ha : applyRule tol st r with
      | error e2 =>
          rw [ha] at h
          simp only [Except.error.injEq] at h
          exact h ▸ applyRule_err ha
      | ok st1 =>
          rw [ha] at h
          exact ih h

theorem runPass_err {tol : ℚ} {rules : List DerivateRule} {vars : Vars}
    {e : DeduceErr} (h : runPass tol rules vars = .error e) :
    e ≠ .fuelExceeded ∧ ∀ m, e ≠ .unknownVariable m :=
  foldR_err h

/-! Fuel sufficiency: the loop never exhausts its fuel when given two more
units than the number of output names not yet known — each pass that is
not the last strictly enlarges the known-name set inside `allOutF`. -/

theorem deduceLoop_no_fuel {tol : ℚ} {rules : List DerivateRule} :
    ∀ (fuel : ℕ) (vars : Vars) (n : ℕ),
      (allOutF rules \ keysF vars).card + 2 ≤ fuel →
      deduceLoop tol rules fuel vars n ≠ .error .fuelExceeded := by
  intro fuel
  induction fuel with
  | zero => intro vars n hcard; omega
  | succ k ih =>
      intro vars n hcard
      by_cases hn : 0 < n
      · simp only [deduceLoop, if_pos hn]
        cases hp : runPass tol rules vars with
        | error e =>
            simp only []
            intro hcontra
            simp only [Except.error.injEq] at hcontra
            exact (runPass_err hp).1 hcontra
        | ok st =>
            simp only []
            obtain ⟨hc, hk, ha, he, hl⟩ := runPass_stepR hp
            rcases Nat.eq_zero_or_pos st.count with hz | hpos
            · rw [hz, deduceLoop_done tol rules k st.vars (by omega)]
              simp
            · have hlt : keysF vars ⊂ keysF st.vars := hl hpos
              have hsub : allOutF rules \ keysF st.vars ⊆
                  allOutF rules \ keysF vars :=
                Finset.sdiff_subset_sdiff (Finset.Subset.refl _) hk
              obtain ⟨x, hxin, hxout⟩ := Finset.exists_of_ssubset hlt
              have hxA : x ∈ allOutF rules := by
                rcases ha x hxin with hx | hx
                · exact absurd hx hxout
                · exact hx
              have hstrict : allOutF rules \ keysF st.vars ⊂
                  allOutF rules \ keysF vars := by
                refine ⟨hsub, fun hcontra => ?_⟩
                have : x ∈ allOutF rules \ keysF st.vars :=
                  hcontra (Finset.mem_sdiff.mpr ⟨hxA, hxout⟩)
                exact (Finset.mem_sdiff.mp this).2 hxin
              have hcard2 := Finset.card_lt_card hstrict
              exact ih st.vars st.count (by omega)
      · simp only [deduceLoop, if_neg hn]
        simp

/-- C6: termination of the deduction loop.  For every tolerance, base-name
list, rule list and seed, the embedded `while` loop of
`DeductorBase.__init__` reaches a pass that adds nothing within its fuel
bound: the known-name set only grows, bounded by the finite set of rule
output names, so `deduce` never reports fuel exhaustion. -/
theorem deduction_terminates (tol : ℚ) (base : List Name)
    (rules : List DerivateRule) (seed : Vars) :
    deduce tol base rules seed ≠ .error .fuelExceeded := by
  unfold deduce
  cases hf : seed.find? (fun p => decide (p.1 ∉ validNames base rules)) with
  | some p => simp
  | none =>
      refine deduceLoop_no_fuel _ seed seed.length ?_
      have h1 : (allOutF rules \ keysF seed).card ≤ (allOutF rules).card :=
        Finset.card_le_card (Finset.sdiff_subset)
      have h2 : (allOutF rules).card ≤ outNamesCount rules :=
        List.toFinset_card_le _
      omega

/-! A fired rule covers exactly its declared output names. -/

theorem call_ok_names {r : DerivateRule} {vars : Vars}
    {outs : List (Name × PyVal)} (hg : ∀ i ∈ r.in_vars, i ∈ keysF vars)
    (h : r.call vars = .ok outs) : outs.map Prod.fst = r.out_vars := by
  have hguard : (r.in_vars.all fun n => (lookupVar vars n).isSome) = true := by
    rw [List.all_eq_true]
    intro i hi
    rw [lookupVar_isSome_iff]
    exact hg i hi
  unfold DerivateRule.call at h
  rw [if_pos hguard] at h
  rcases hov : r.out_vars with _ | ⟨o, tail⟩
  · rw [hov] at h
    cases hres : r.func (r.in_vars.map (fun n => (lookupVar vars n).getD 0)) with
    | num x => rw [hres] at h; simp at h
    | seq l =>
        rw [hres] at h
        simp only [] at h
        by_cases hlen : ([] : List Name).length = l.length
        · rw [if_pos hlen] at h
          simp only [Except.ok.injEq] at h
          rw [← h]
          rfl
        · rw [if_neg hlen] at h
          simp at h
  · cases tail with
    | nil =>
        rw [hov] at h
        simp only [Except.ok.injEq] at h
        rw [← h]
        rfl
    | cons o2 tail2 =>
        rw [hov] at h
        cases hres : r.func (r.in_vars.map (fun n => (lookupVar vars n).getD 0)) with
        | num x => rw [hres] at h; simp at h
        | seq l =>
            rw [hres] at h
            simp only [] at h
            by_cases hlen : (o :: o2 :: tail2).length = l.length
            · rw [if_pos hlen] at h
              simp only [Except.ok.injEq] at h
              rw [← h]
              refine List.map_fst_zip _ _ ?_
              rw [List.length_map]
              omega
            · rw [if_neg hlen] at h
              simp at h

theorem applyRule_ok_call {tol : ℚ} {st st2 : DState} {r : DerivateRule}
    (h : applyRule tol st r = .ok st2) :
    ∃ outs, r.call st.vars = .ok outs ∧ foldP tol st outs = .ok st2 := by
  unfold applyRule at h
  cases hc : r.call st.vars with
  | error e => rw [hc] at h; simp at h
  | ok outs => rw [hc] at h; exact ⟨outs, rfl, h⟩

/-! A pass that adds nothing leaves the state untouched at every step. -/

theorem foldP_fixed {tol : ℚ} {l : List (Name × PyVal)} :
    ∀ {st st2 : DState}, foldP tol st l = .ok st2 → st2.count = st.count →
      st2 = st ∧ ∀ p ∈ l, processOne tol st p.1 p.2 = .ok st := by
  induction l with
  | nil =>
      intro st st2 h _
      simp only [foldP, Except.ok.injEq] at h
      exact ⟨h.symm, by simp⟩
  | cons p rest ih =>
      intro st st2 h hcnt
      unfold foldP at h
      cases hpo : processOne tol st p.1 p.2 with
      | error e => rw [hpo] at h; simp at h
      | ok st1 =>
          rw [hpo] at h
          have hst1 : st1 = st := by
            have h1 := (processOne_stepR hpo).1
            have h2 := (foldP_stepR h).1
            exact (processOne_stepR hpo).2.2.2.1 (by omega)
          subst hst1
          obtain ⟨h2, hrest⟩ := ih h hcnt
          refine ⟨h2, ?_⟩
          intro p2 hp2
          rcases List.mem_cons.mp hp2 with hp2 | hp2
          · rw [hp2]; exact hpo
          · exact hrest p2 hp2

theorem foldR_fixed {tol : ℚ} {l : List DerivateRule} :
    ∀ {st st2 : DState}, foldR tol st l = .ok st2 → st2.count = st.count →
      st2 = st ∧ ∀ r ∈ l, applyRule tol st r = .ok st := by
  induction l with
  | nil =>
      intro st st2 h _
      simp only [foldR, Except.ok.injEq] at h
      exact ⟨h.symm, by simp⟩
  | cons r rest ih =>
      intro st st2 h hcnt
      unfold foldR at h
      cases ha : applyRule tol st r with
      | error e => rw [ha] at h; simp at h
      | ok st1 =>
          rw [ha] at h
          have hst1 : st1 = st := by
            have h1 := (applyRule_stepR ha).1
            have h2 := (foldR_stepR h).1
            exact (applyRule_stepR ha).2.2.2.1 (by omega)
          subst hst1
          obtain ⟨h2, hrest⟩ := ih h hcnt
          refine ⟨h2, ?_⟩
          intro r2 hr2
          rcases List.mem_cons.mp hr2 with hr2 | hr2
          · rw [hr2]; exact ha
          · exact hrest r2 hr2

theorem runPass_fixed {tol : ℚ} {rules : List DerivateRule} {vars : Vars}
    {st2 : DState} (h : runPass tol rules vars = .ok st2)
    (hcnt : st2.count = 0) :
    st2 = ⟨vars, 0⟩ ∧ ∀ r ∈ rules, applyRule tol ⟨vars, 0⟩ r = .ok ⟨vars, 0⟩ :=
  foldR_fixed h hcnt

/-- After a pass that adds nothing, the known-name set is closed: every
rule whose inputs are all known has all its outputs known. -/
theorem pass_fixed_closed {tol : ℚ} {rules : List DerivateRule} {vars : Vars}
    (h : runPass tol rules vars = .ok ⟨vars, 0⟩) :
    ∀ r ∈ rules, (∀ i ∈ r.in_vars, i ∈ keysF vars) →
      ∀ o ∈ r.out_vars, o ∈ keysF vars := by
  obtain ⟨_, hall⟩ := runPass_fixed h rfl
  intro r hr hg o ho
  obtain ⟨outs, hcall, hfold⟩ := applyRule_ok_call (hall r hr)
  obtain ⟨_, heach⟩ := foldP_fixed hfold rfl
  have hnames := call_ok_names hg hcall
  rw [← hnames] at ho
  obtain ⟨p, hp, hpo⟩ := List.mem_map.mp ho
  rcases processOne_ok_cases (heach p hp) with ⟨_, hmem⟩ | ⟨q, _, _, habs⟩
  · rw [← hpo]; exact hmem
  · exact absurd (congrArg DState.count habs) (by simp)

/-! Soundness: every known name is in the closure of the seed names. -/

theorem foldP_inv {tol : ℚ} {l : List (Name × PyVal)} {P : Name → Prop} :
    ∀ {st st2 : DState}, foldP tol st l = .ok st2 →
      (∀ x ∈ keysF st.vars, P x) → (∀ p ∈ l, P p.1) →
      ∀ x ∈ keysF st2.vars, P x := by
  induction l with
  | nil =>
      intro st st2 h hinv _
      simp only [foldP, Except.ok.injEq] at h
      exact h ▸ hinv
  | cons p rest ih =>
      intro st st2 h hinv hl
      unfold foldP at h
      cases hpo : processOne tol st p.1 p.2 with
      | error e => rw [hpo] at h; simp at h
      | ok st1 =>
          rw [hpo] at h
          have hinv1 : ∀ x ∈ keysF st1.vars, P x := by
            rcases processOne_ok_cases hpo with ⟨heq, _⟩ | ⟨q, _, _, heq⟩
            · exact heq ▸ hinv
            · subst heq
              intro x hx
              simp only [keysF_append] at hx
              rcases Finset.mem_insert.mp hx with hx | hx
              · exact hx ▸ hl p (List.mem_cons_self p rest)
              · exact hinv x hx
          exact ih h hinv1 (fun p2 hp2 => hl p2 (List.mem_cons_of_mem p hp2))

theorem applyRule_inv {tol : ℚ} {st st2 : DState} {r : DerivateRule}
    {rules : List DerivateRule} {K : Finset Name} (hr : r ∈ rules)
    (h : applyRule tol st r = .ok st2)
    (hinv : ∀ x ∈ keysF st.vars, InClosure rules K x) :
    ∀ x ∈ keysF st2.vars, InClosure rules K x := by
  obtain ⟨outs, hcall, hfold⟩ := applyRule_ok_call h
  refine foldP_inv hfold hinv ?_
  intro p hp
  obtain ⟨hout, hg⟩ := call_ok_mem_strong hcall p hp
  exact InClosure.rule hr (fun i hi => hinv i (hg i hi)) hout

theorem foldR_inv {tol : ℚ} {l rules : List DerivateRule} {K : Finset Name}
    (hsub : ∀ r ∈ l, r ∈ rules) :
    ∀ {st st2 : DState}, foldR tol st l = .ok st2 →
      (∀ x ∈ keysF st.vars, InClosure rules K x) →
      ∀ x ∈ keysF st2.vars, InClosure rules K x := by
  induction l with
  | nil =>
      intro st st2 h hinv
      simp only [foldR, Except.ok.injEq] at h
      exact h ▸ hinv
  | cons r rest ih =>
      intro st st2 h hinv
      unfold foldR at h
      cases ha : applyRule tol st r with
      | error e => rw [ha] at h; simp at h
      | ok st1 =>
          rw [ha] at h
          have hinv1 := applyRule_inv (hsub r (List.mem_cons_self r rest)) ha hinv
          exact ih (fun r2 hr2 => hsub r2 (List.mem_cons_of_mem r hr2)) h hinv1

theorem runPass_inv {tol : ℚ} {rules : List DerivateRule} {K : Finset Name}
    {vars : Vars} {st2 : DState} (h : runPass tol rules vars = .ok st2)
    (hinv : ∀ x ∈ keysF vars, InClosure rules K x) :
    ∀ x ∈ keysF st2.vars, InClosure rules K x :=
  foldR_inv (fun _ hr => hr) h hinv

theorem deduceLoop_inv {tol : ℚ} {rules : List DerivateRule} {K : Finset Name} :
    ∀ (fuel : ℕ) {vars : Vars} {n : ℕ} {V : Vars},
      deduceLoop tol rules fuel vars n = .ok V →
      (∀ x ∈ keysF vars, InClosure rules K x) →
      ∀ x ∈ keysF V, InClosure rules K x := by
  intro fuel
  induction fuel with
  | zero => intro vars n V h _; simp [deduceLoop] at h
  | succ k ih =>
      intro vars n V h hinv
      by_cases hn : 0 < n
      · simp only [deduceLoop, if_pos hn] at h
        cases hp : runPass tol rules vars with
        | error e => rw [hp] at h; simp at h
        | ok st =>
            rw [hp] at h
            simp only [] at h
            exact ih h (runPass_inv hp hinv)
      · simp only [deduceLoop, if_neg hn, Except.ok.injEq] at h
        exact h ▸ hinv

theorem deduceLoop_mono {tol : ℚ} {rules : List DerivateRule} :
    ∀ (fuel : ℕ) {vars : Vars} {n : ℕ} {V : Vars},
      deduceLoop tol rules fuel vars n = .ok V → keysF vars ⊆ keysF V := by
  intro fuel
  induction fuel with
  | zero => intro vars n V h; simp [deduceLoop] at h
  | succ k ih =>
      intro vars n V h
      by_cases hn : 0 < n
      · simp only [deduceLoop, if_pos hn] at h
        cases hp : runPass tol rules vars with
        | error e => rw [hp] at h; simp at h
        | ok st =>
            rw [hp] at h
            simp only [] at h
            exact Finset.Subset.trans (runPass_stepR hp).2.1 (ih h)
      · simp only [deduceLoop, if_neg hn, Except.ok.injEq] at h
        exact h ▸ Finset.Subset.refl _

/-- A successful loop either never entered (zero counter) or its final
dictionary is a fixed point of the pass. -/
theorem deduceLoop_last {tol : ℚ} {rules : List DerivateRule} :
    ∀ (fuel : ℕ) {vars : Vars} {n : ℕ} {V : Vars},
      deduceLoop tol rules fuel vars n = .ok V →
      (n = 0 ∧ V = vars) ∨ runPass tol rules V = .ok ⟨V, 0⟩ := by
  intro fuel
  induction fuel with
  | zero => intro vars n V h; simp [deduceLoop] at h
  | succ k ih =>
      intro vars n V h
      by_cases hn : 0 < n
      · simp only [deduceLoop, if_pos hn] at h
        cases hp : runPass tol rules vars with
        | error e => rw [hp] at h; simp at h
        | ok st =>
            rw [hp] at h
            simp only [] at h
            rcases ih h with ⟨hc0, hVv⟩ | hfix
            · obtain ⟨hst, _⟩ := runPass_fixed hp hc0
              refine Or.inr ?_
              have hvars : V = vars := by rw [hVv, hst]
              rw [hvars, hp, hst, ← hvars, hvars]
            · exact Or.inr hfix
      · simp only [deduceLoop, if_neg hn, Except.ok.injEq] at h
        exact Or.inl ⟨by omega, h.symm⟩

/-! Closure lemmas. -/

theorem inClosure_sub_keys {rules : List DerivateRule} {K : Finset Name}
    {V : Vars} (hK : K ⊆ keysF V)
    (hcl : ∀ r ∈ rules, (∀ i ∈ r.in_vars, i ∈ keysF V) →
      ∀ o ∈ r.out_vars, o ∈ keysF V) :
    ∀ x, InClosure rules K x → x ∈ keysF V := by
  intro x h
  induction h with
  | seed hx => exact hK hx
  | rule hr hin hout ih => exact hcl _ hr (fun i hi => ih i hi) _ hout

theorem inClosure_of_subset {rules1 rules2 : List DerivateRule}
    {K : Finset Name} {x : Name} (hsub : ∀ r ∈ rules1, r ∈ rules2)
    (h : InClosure rules1 K x) : InClosure rules2 K x := by
  induction h with
  | seed hx => exact InClosure.seed hx
  | rule hr hin hout ih => exact InClosure.rule (hsub _ hr) ih hout

theorem inClosure_mono_seed {rules : List DerivateRule} {K1 K2 : Finset Name}
    {x : Name} (hK : K1 ⊆ K2) (h : InClosure rules K1 x) :
    InClosure rules K2 x := by
  induction h with
  | seed hx => exact InClosure.seed (hK hx)
  | rule hr hin hout ih => exact InClosure.rule hr ih hout

theorem inClosure_collapse {rules : List DerivateRule} {K1 K2 : Finset Name}
    {x : Name} (h2 : ∀ y ∈ K2, InClosure rules K1 y)
    (h : InClosure rules K2 x) : InClosure rules K1 x := by
  induction h with
  | seed hx => exact h2 _ hx
  | rule hr hin hout ih => exact InClosure.rule hr ih hout

/-! The final known-name set of a successful deduction from a nonempty
seed is exactly the closure of the seed names. -/

theorem deduce_ok_loop {tol : ℚ} {base : List Name}
    {rules : List DerivateRule} {seed V : Vars}
    (h : deduce tol base rules seed = .ok V) :
    deduceLoop tol rules (outNamesCount rules + 2) seed seed.length = .ok V := by
  unfold deduce at h
  cases hf : seed.find? (fun p => decide (p.1 ∉ validNames base rules)) with
  | some p => rw [hf] at h; simp at h
  | none => rw [hf] at h; exact h

theorem deduce_ok_keys {tol : ℚ} {base : List Name}
    {rules : List DerivateRule} {seed V : Vars}
    (h : deduce tol base rules seed = .ok V) (hne : seed ≠ []) :
    ∀ x, x ∈ keysF V ↔ InClosure rules (keysF seed) x := by
  have hloop := deduce_ok_loop h
  intro x
  constructor
  · intro hx
    exact deduceLoop_inv _ hloop
      (fun y hy => InClosure.seed hy) x hx
  · intro hx
    rcases deduceLoop_last _ hloop with ⟨hc0, _⟩ | hfix
    · exact absurd (List.length_eq_zero.mp hc0) hne
    · refine inClosure_sub_keys (deduceLoop_mono _ hloop)
        (pass_fixed_closed hfix) x hx

theorem deduce_nil (tol : ℚ) (base : List Name) (rules : List DerivateRule) :
    deduce tol base rules [] = .ok [] := by
  unfold deduce
  simp only [List.find?_nil]
  exact deduceLoop_done tol rules _ [] (by omega)

/-! Seed-validation lemmas. -/

theorem mem_inNamesFold {rules : List DerivateRule} {n : Name} :
    n ∈ rules.foldr (fun r acc => r.in_vars ++ acc) [] ↔
      ∃ r ∈ rules, n ∈ r.in_vars := by
  induction rules with
  | nil => simp
  | cons r rest ih => simp [List.mem_append, ih]

theorem mem_validNames {base : List Name} {rules : List DerivateRule}
    {n : Name} : n ∈ validNames base rules ↔
      n ∈ base ∨ ∃ r ∈ rules, n ∈ r.in_vars := by
  unfold validNames
  rw [List.mem_append, mem_inNamesFold]

theorem deduceLoop_ne_unknown {tol : ℚ} {rules : List DerivateRule} :
    ∀ (fuel : ℕ) (vars : Vars) (n : ℕ) (m : Name),
      deduceLoop tol rules fuel vars n ≠ .error (.unknownVariable m) := by
  intro fuel
  induction fuel with
  | zero => intro vars n m; simp [deduceLoop]
  | succ k ih =>
      intro vars n m
      by_cases hn : 0 < n
      · simp only [deduceLoop, if_pos hn]
        cases hp : runPass tol rules vars with
        | error e =>
            simp only []
            intro hcontra
            simp only [Except.error.injEq] at hcontra
            exact (runPass_err hp).2 m hcontra
        | ok st =>
            simp only []
            exact ih st.vars st.count m
      · simp only [deduceLoop, if_neg hn]
        simp

/-- C3 (amended): seed-name validation raises UnknownVariable exactly when
some seed name is neither a base attribute name nor among any rule's
declared *input* names.  Rule *output* names are not consulted, so a seed
name appearing only as an output is rejected, contrary to the original
claim.  The error can only come from the validation phase, never from the
propagation loop. -/
theorem seed_validation_iff (tol : ℚ) (base : List Name)
    (rules : List DerivateRule) (seed : Vars) :
    (∃ m, deduce tol base rules seed = .error (.unknownVariable m)) ↔
    (∃ p ∈ seed, p.1 ∉ base ∧ ∀ r ∈ rules, p.1 ∉ r.in_vars) := by
  constructor
  · rintro ⟨m, hm⟩
    unfold deduce at hm
    cases hf : seed.find? (fun p => decide (p.1 ∉ validNames base rules)) with
    | some p =>
        have hpmem := List.mem_of_find?_eq_some hf
        have hpred := List.find?_some hf
        rw [decide_eq_true_eq, mem_validNames] at hpred
        push_neg at hpred
        exact ⟨p, hpmem, hpred.1, fun r hr => hpred.2 r hr⟩
    | none =>
        rw [hf] at hm
        exact absurd hm (deduceLoop_ne_unknown _ _ _ m)
  · rintro ⟨p, hp, hbase, hrules⟩
    have hex : (seed.find? (fun q => decide (q.1 ∉ validNames base rules))).isSome := by
      rw [List.find?_isSome]
      refine ⟨p, hp, ?_⟩
      rw [decide_eq_true_eq, mem_validNames]
      push_neg
      exact ⟨hbase, hrules⟩
    obtain ⟨q, hq⟩ := Option.isSome_iff_exists.mp hex
    refine ⟨q.1, ?_⟩
    unfold deduce
    rw [hq]

/-- C3 counterexample: with base name `A`, a single rule `C <- (A, B)`
and seed containing only `C`, construction fails UnknownVariable even
though `C` is a rule's output name — the original claim says such a seed
name is accepted. -/
theorem seed_output_name_rejected_cex :
    deduce (1/20) [nA, nB] [rC] [(nC, 3)] = .error (.unknownVariable nC) ∧
    nC ∈ rC.out_vars := by
  exact ⟨rfl, by decide⟩

/-- C1 (amended): permuting the rule list preserves the final *known-name*
set of a successful deduction — the set of names in the final dictionary
is the closure of the seed names under the rules, which depends only on
which rules are present.  The *values* bound to those names may depend on
rule order (see the counterexample), because the first accepted value for
a name is kept and later within-tolerance rederivations are discarded. -/
theorem rule_order_known_set_independence (tol : ℚ) (base : List Name)
    (l1 l2 : List DerivateRule) (seed V1 V2 : Vars) (hperm : l1.Perm l2)
    (h1 : deduce tol base l1 seed = .ok V1)
    (h2 : deduce tol base l2 seed = .ok V2) : keysF V1 = keysF V2 := by
  cases seed with
  | nil =>
      rw [deduce_nil] at h1 h2
      simp only [Except.ok.injEq] at h1 h2
      rw [← h1, ← h2]
  | cons p rest =>
      have hne : (p :: rest : Vars) ≠ [] := by simp
      apply Finset.ext
      intro x
      rw [deduce_ok_keys h1 hne x, deduce_ok_keys h2 hne x]
      constructor
      · exact inClosure_of_subset (fun r hr => hperm.mem_iff.mp hr)
      · exact inClosure_of_subset (fun r hr => hperm.mem_iff.mpr hr)

/-- C1 counterexample: rules `rX1` and `rX2` both derive `X` from `A`,
with values 1 and 26/25 — within the 5 percent tolerance of each other,
so both orders succeed — yet the two orders bind different values to `X`:
the final known-value mapping is *not* order-independent. -/
theorem rule_order_value_dependence_cex :
    deduce (1/20) [nA] [rX1, rX2] [(nA, 5)] = .ok [(nA, 5), (nX, 1)] ∧
    deduce (1/20) [nA] [rX2, rX1] [(nA, 5)] = .ok [(nA, 5), (nX, 26/25)] ∧
    [rX1, rX2].Perm [rX2, rX1] ∧
    lookupVar [(nA, 5), (nX, 1)] nX ≠ lookupVar [(nA, 5), (nX, 26/25)] nX := by
  refine ⟨eval_order1, eval_order2, List.Perm.swap rX2 rX1 [], ?_⟩
  intro hcontra
  have h1 : lookupVar [(nA, 5), (nX, 1)] nX = some 1 := rfl
  have h2 : lookupVar [(nA, 5), (nX, 26/25)] nX = some (26/25) := rfl
  rw [h1, h2] at hcontra
  have := Option.some.inj hcontra
  norm_num at this

theorem rule_order_known_set_independence_witness :
    deduce (1/20) [nA] [rX1, rX2] [(nA, 5)] = .ok [(nA, 5), (nX, 1)] ∧
    deduce (1/20) [nA] [rX2, rX1] [(nA, 5)] = .ok [(nA, 5), (nX, 26/25)] ∧
    keysF [(nA, 5), (nX, 1)] = keysF [(nA, 5), (nX, 26/25)] :=
  ⟨eval_order1, eval_order2,
    rule_order_known_set_independence (1/20) [nA] [rX1, rX2] [rX2, rX1]
      [(nA, 5)] _ _ (List.Perm.swap rX2 rX1 []) eval_order1 eval_order2⟩

/-- C7 (amended): re-running deduction with the seed extended inside the
already-deduced dictionary preserves the final *known-name* set, provided
the re-run succeeds at all.  The original claim fails in two ways: the
extended seed may be rejected with UnknownVariable (a deduced name need
not be a valid seed name), and even a successful re-run may bind
*different values* (first-accepted-value depends on what is seeded);
see the counterexample. -/
theorem idempotent_seed_extension_known_set (tol : ℚ) (base : List Name)
    (rules : List DerivateRule) (seed seed2 V V2 : Vars)
    (h1 : deduce tol base rules seed = .ok V)
    (h2 : deduce tol base rules seed2 = .ok V2)
    (hsub1 : keysF seed ⊆ keysF seed2) (hsub2 : keysF seed2 ⊆ keysF V) :
    keysF V2 = keysF V := by
  cases seed with
  | nil =>
      rw [deduce_nil] at h1
      simp only [Except.ok.injEq] at h1
      have hV : V = [] := h1.symm
      subst hV
      have hk2 : keysF seed2 = ∅ := Finset.subset_empty.mp hsub2
      have hseed2 : seed2 = [] := by
        cases seed2 with
        | nil => rfl
        | cons q t =>
            exfalso
            have : q.1 ∈ keysF (q :: t) := by simp [keysF]
            rw [hk2] at this
            exact absurd this (Finset.not_mem_empty _)
      subst hseed2
      rw [deduce_nil] at h2
      simp only [Except.ok.injEq] at h2
      rw [← h2]
  | cons p rest =>
      have hne : (p :: rest : Vars) ≠ [] := by simp
      have hne2 : seed2 ≠ [] := by
        intro hcontra
        subst hcontra
        have hmem : p.1 ∈ keysF (p :: rest) := by simp [keysF]
        have := hsub1 hmem
        simp [keysF] at this
      apply Finset.ext
      intro x
      rw [deduce_ok_keys h2 hne2 x, deduce_ok_keys h1 hne x]
      constructor
      · refine inClosure_collapse ?_
        intro y hy
        exact (deduce_ok_keys h1 hne y).mp (hsub2 hy)
      · exact inClosure_mono_seed hsub1

/-- C7 counterexample, two parts.  First, with base `A, B` and rule
`C <- (A, B)`, deducing from seed `(A, B)` yields `C = 3`, but re-running
on the extended seed `(A, B, C)` fails UnknownVariable — `C` is neither a
base name nor any rule's input.  Second, with rules `X <- P`, `X <- A`
and `P <- A`, both the original seed `(A)` and the valid extended seed
`(A, P)` succeed, but they bind different values to `X` (1 versus 26/25):
the re-run final state is not identical. -/
theorem idempotence_failure_cex :
    deduce (1/20) [nA, nB] [rC] [(nA, 1), (nB, 2)] =
      .ok [(nA, 1), (nB, 2), (nC, 3)] ∧
    deduce (1/20) [nA, nB] [rC] [(nA, 1), (nB, 2), (nC, 3)] =
      .error (.unknownVariable nC) ∧
    deduce (1/20) [nA] [rXP, rX1, rPA] [(nA, 1)] =
      .ok [(nA, 1), (nX, 1), (nP, 1)] ∧
    deduce (1/20) [nA] [rXP, rX1, rPA] [(nA, 1), (nP, 1)] =
      .ok [(nA, 1), (nP, 1), (nX, 26/25)] ∧
    lookupVar [(nA, 1), (nX, 1), (nP, 1)] nX ≠
      lookupVar [(nA, 1), (nP, 1), (nX, 26/25)] nX := by
  refine ⟨eval_seedAB, eval_seedABC, eval_c7b1, eval_c7b2, ?_⟩
  intro hcontra
  have h1 : lookupVar [(nA, 1), (nX, 1), (nP, 1)] nX = some 1 := rfl
  have h2 : lookupVar [(nA, 1), (nP, 1), (nX, 26/25)] nX = some (26/25) := rfl
  rw [h1, h2] at hcontra
  have := Option.some.inj hcontra
  norm_num at this

theorem idempotent_seed_extension_known_set_witness :
    deduce (1/20) [nA, nB] [rC, rD] [(nA, 1), (nB, 2)] =
      .ok [(nA, 1), (nB, 2), (nC, 3), (nD, 7)] ∧
    deduce (1/20) [nA, nB] [rC, rD] [(nA, 1), (nB, 2), (nC, 3)] =
      .ok [(nA, 1), (nB, 2), (nC, 3), (nD, 7)] ∧
    keysF [(nA, 1), (nB, 2), (nC, 3), (nD, 7)] =
      keysF [(nA, 1), (nB, 2), (nC, 3), (nD, 7)] :=
  ⟨eval_cd1, eval_cd2,
    idempotent_seed_extension_known_set (1/20) [nA, nB] [rC, rD]
      [(nA, 1), (nB, 2)] [(nA, 1), (nB, 2), (nC, 3)] _ _ eval_cd1 eval_cd2
      (by decide) (by decide)⟩

/-- C2: when a rule rederives value `val` for a name already known with
value `old`, the deduction body raises Contradiction (naming the old and
the rederived value) if and only if `abs(val - old)` strictly exceeds
`tol * max(abs(old), abs(val))`, and when it does not raise, the state —
including the stored value for that name — is left completely unchanged:
the first accepted value stays authoritative. -/
theorem contradiction_tolerance_boundary (tol : ℚ) (st : DState)
    (name : Name) (old val : ℚ) (h : lookupVar st.vars name = some old) :
    (processOne tol st name (.num (some val)) =
        .error (.contradiction name old val) ↔
      |val - old| > tol * max |old| |val|) ∧
    (¬ |val - old| > tol * max |old| |val| →
      processOne tol st name (.num (some val)) = .ok st) := by
  constructor
  · constructor
    · intro heq
      by_contra hc
      rw [processOne_confirm tol st name val old h hc] at heq
      exact Except.noConfusion heq
    · intro hc
      rw [processOne_known tol st name val old h, if_pos hc]
  · exact processOne_confirm tol st name val old h

theorem contradiction_tolerance_boundary_witness :
    processOne (1/20) ⟨[(nX, 19)], 0⟩ nX (.num (some 20)) =
      .ok ⟨[(nX, 19)], 0⟩ ∧
    processOne (1/20) ⟨[(nX, 19)], 0⟩ nX (.num (some 21)) =
      .error (.contradiction nX 19 21) :=
  ⟨(contradiction_tolerance_boundary (1/20) ⟨[(nX, 19)], 0⟩ nX 19 20 rfl).2
      cond_boundary,
   (contradiction_tolerance_boundary (1/20) ⟨[(nX, 19)], 0⟩ nX 19 21 rfl).1.mpr
      cond_raise⟩

/-- C5 (amended): registration (`DerivateRule.__init__`) checks only the
declared input-name count against the function's parameter count and
never inspects output arity; a result-arity mismatch with the declared
output names surfaces only at apply time, as a `TypeError` raised when
the rule fires with all inputs known. -/
theorem output_arity_checked_at_apply :
    (∀ (out : List Name) (func : List ℚ → PyVal) (funcArgs ins : List Name),
        ins.length = funcArgs.length →
        mkDerivateRule out func funcArgs (some ins) = .ok ⟨out, ins, func⟩) ∧
    (∀ (r : DerivateRule) (vars : Vars) (l : List (Option ℚ)),
        (∀ i ∈ r.in_vars, i ∈ keysF vars) → r.out_vars.length ≠ 1 →
        r.func (r.in_vars.map (fun n => (lookupVar vars n).getD 0)) = .seq l →
        l.length ≠ r.out_vars.length → r.call vars = .error .typeErr) := by
  constructor
  · intro out func funcArgs ins hlen
    unfold mkDerivateRule
    simp only []
    rw [if_pos hlen]
  · intro r vars l hg hlen1 hres hlen2
    have hguard : (r.in_vars.all fun n => (lookupVar vars n).isSome) = true := by
      rw [List.all_eq_true]
      intro i hi
      rw [lookupVar_isSome_iff]
      exact hg i hi
    unfold DerivateRule.call
    rw [if_pos hguard]
    rcases hov : r.out_vars with _ | ⟨o, tail⟩
    · rw [hov] at hlen2
      rw [hres]
      simp only []
      rw [if_neg (fun hc : ([] : List Name).length = l.length => hlen2 hc.symm)]
    · cases tail with
      | nil => rw [hov] at hlen1; simp at hlen1
      | cons o2 tail2 =>
          rw [hov] at hlen2
          rw [hres]
          simp only []
          rw [if_neg (fun hc : (o :: o2 :: tail2).length = l.length =>
            hlen2 hc.symm)]

/-- C5 counterexample: a rule declaring two output names over a function
returning a 3-tuple registers without error (registration checks nothing
about outputs), and then applying it with its single input known raises
the `TypeError` — so the output-arity mismatch is an apply-time error,
not a registration-time schema error as claimed. -/
theorem output_arity_apply_time_cex :
    mkDerivateRule [nA, nB] fTriple [nX] none = .ok rBad ∧
    rBad.out_vars.length = 2 ∧
    rBad.call [(nX, 5)] = .error .typeErr :=
  ⟨rfl, rfl, rfl⟩

theorem output_arity_checked_at_apply_witness :
    mkDerivateRule [nA, nB] fTriple [nX] (some [nX]) = .ok rBad ∧
    rBad.call [(nX, 5)] = .error .typeErr :=
  ⟨output_arity_checked_at_apply.1 [nA, nB] fTriple [nX] [nX] rfl,
   output_arity_checked_at_apply.2 rBad [(nX, 5)] [some 1, some 2, some 3]
     (by decide) (by decide) rfl (by decide)⟩

/-- C8: an "undefined" (NaN) result is rejected before anything else
happens to it.  First part: the per-value body maps a NaN value straight
to the DeducedNaN failure, in *every* state — whether or not the name is
already known, seeded or requested, so the check precedes both the
add-to-known-set step and the contradiction comparison.  Second part: a
construction that succeeded can never have had a fired rule produce NaN —
every value produced by a rule whose call fires on the final dictionary
is a real number. -/
theorem nan_output_aborts :
    (∀ (tol : ℚ) (st : DState) (name : Name),
        processOne tol st name (.num none) = .error (.deducedNaN name)) ∧
    (∀ (tol : ℚ) (base : List Name) (rules : List DerivateRule)
        (seed V : Vars), seed ≠ [] → deduce tol base rules seed = .ok V →
        ∀ r ∈ rules, ∀ outs, r.call V = .ok outs →
        ∀ p ∈ outs, p.2 ≠ PyVal.num none) := by
  constructor
  · intro tol st name
    rfl
  · intro tol base rules seed V hne h r hr outs hcall p hp hcontra
    have hloop := deduce_ok_loop h
    rcases deduceLoop_last _ hloop with ⟨hc0, _⟩ | hfix
    · exact absurd (List.length_eq_zero.mp hc0) hne
    · obtain ⟨_, hall⟩ := runPass_fixed hfix rfl
      obtain ⟨outs2, hcall2, hfold⟩ := applyRule_ok_call (hall r hr)
      have hcall2b : r.call V = .ok outs2 := hcall2
      rw [hcall] at hcall2b
      simp only [Except.ok.injEq] at hcall2b
      subst hcall2b
      obtain ⟨_, heach⟩ := foldP_fixed hfold rfl
      have hpo := heach p hp
      rw [hcontra] at hpo
      simp [processOne] at hpo

theorem nan_output_aborts_witness :
    processOne (1/20) ⟨[], 0⟩ nX (.num none) = .error (.deducedNaN nX) ∧
    (nC, PyVal.num (some (3:ℚ))).2 ≠ PyVal.num none :=
  ⟨nan_output_aborts.1 (1/20) ⟨[], 0⟩ nX,
   nan_output_aborts.2 (1/20) [nA, nB] [rC] [(nA, 1), (nB, 2)]
     [(nA, 1), (nB, 2), (nC, 3)] (by simp) eval_seedAB rC
     (List.mem_cons_self rC []) [(nC, .num (some 3))] rfl
     (nC, .num (some 3)) (List.mem_cons_self _ [])⟩

/-- C9: constructing with an empty seed applies no derivation rule at all:
`n_variables_deduced` starts at `len(variables) = 0`, so the `while` loop
is never entered — for *every* rule list, including rules with an empty
input-name tuple (which would fire on any pass, and would even raise
DeducedNaN if their output were NaN) — the final dictionary is empty and
every base attribute is recorded as explicitly unknown (NaN). -/
theorem empty_seed_no_deduction (tol : ℚ) (base : List Name)
    (rules : List DerivateRule) :
    deduce tol base rules [] = .ok [] ∧
    initDeductor tol base rules [] =
      .ok (base.map (fun n => (n, (none : Option ℚ)))) := by
  refine ⟨deduce_nil tol base rules, ?_⟩
  unfold initDeductor
  rw [deduce_nil]
  rfl

/-- C4: `DeductorBase.validate` iterates `self._VALIDATORS`, which Python
attribute lookup resolves to the *nearest defining class's own* list —
not the composed `_ALL_VALIDATORS` (inherited-first-then-own) that
`__init_subclass__` builds and the `validators` classproperty exposes.
In the hierarchy `DeductorBase -> Parent -> Child`, where Parent declares
a failing validator and Child declares its own passing one, `validate`
succeeds even though the composed list — which the spec says is executed
— fails at the inherited validator (and that failure aborts before the
child validator, exhibiting first-failure-aborts on the composed run). -/
theorem validate_skips_inherited_validators :
    validateModel framesPC mP = .ok () ∧
    (allValidators framesPC).map (fun v => v.desc) = [descParent, descChild] ∧
    runValidators mP (allValidators framesPC) =
      .error (.validationFailed descParent) :=
  ⟨rfl, rfl, rfl⟩

/-- C10 (amended): an alias attribute is always constructed with no units
or description of its own, and `add_to_class` copies the target's units
and description if and only if the target's descriptor occurs in the
class's *own* attribute list being installed; an alias whose target is
declared only on a superclass keeps `None` units and description. -/
theorem alias_metadata_copy_scope :
    (∀ na orig : Name, (AliasAttribute.mk' na orig).meta.units = none ∧
        (AliasAttribute.mk' na orig).meta.desc = none) ∧
    (∀ (na orig : Name) (pre post : List AttrMeta) (t : AttrMeta),
        (∀ u ∈ pre, u.name ≠ orig) → t.name = orig →
        (∀ u ∈ post, u.name ≠ orig) →
        aliasAddToClassMeta (AliasAttribute.mk' na orig) (pre ++ t :: post) =
          ⟨na, t.units, t.desc⟩) ∧
    (∀ (na orig : Name) (attrs : List AttrMeta),
        (∀ u ∈ attrs, u.name ≠ orig) →
        aliasAddToClassMeta (AliasAttribute.mk' na orig) attrs =
          ⟨na, none, none⟩) := by
  have hskip : ∀ (orig2 : Name) (attrs : List AttrMeta) (s : AttrMeta),
      (∀ u ∈ attrs, u.name ≠ orig2) →
      attrs.foldl
        (fun s t =>
          if t.name = orig2 then
            ⟨s.name,
             if s.units = none then t.units else s.units,
             if s.desc = none then t.desc else s.desc⟩
          else s) s = s := by
    intro orig2 attrs
    induction attrs with
    | nil => intro s _; rfl
    | cons u rest ih =>
        intro s h
        simp only [List.foldl_cons,
          if_neg (h u (List.mem_cons_self u rest))]
        exact ih s (fun u2 hu2 => h u2 (List.mem_cons_of_mem u hu2))
  refine ⟨fun na orig => ⟨rfl, rfl⟩, ?_, ?_⟩
  · intro na orig pre post t hpre ht hpost
    unfold aliasAddToClassMeta
    simp only [AliasAttribute.mk']
    rw [List.foldl_append, hskip orig pre _ hpre]
    simp only [List.foldl_cons, if_pos ht]
    rw [hskip orig post _ hpost]
    simp
  · intro na orig attrs h
    unfold aliasAddToClassMeta
    simp only [AliasAttribute.mk']
    exact hskip orig attrs _ h

/-- C10 counterexample: alias `Rph` for `R` where `R` (units Ohm) is
declared on a parent class, so the child's own attribute list contains
only the alias itself.  After `add_to_class` the alias metadata is still
`(Rph, None, None)`: no units or description were copied from the
target's descriptor, contrary to the claim. -/
theorem alias_inherited_target_metadata_cex :
    aliasAddToClassMeta (AliasAttribute.mk' nRph nR)
      [(AliasAttribute.mk' nRph nR).meta] = ⟨nRph, none, none⟩ ∧
    attrR.name = nR ∧ attrR.units = some uOhm ∧
    (aliasAddToClassMeta (AliasAttribute.mk' nRph nR)
      [(AliasAttribute.mk' nRph nR).meta]).units ≠ attrR.units := by
  exact ⟨rfl, rfl, rfl, by decide⟩

theorem alias_metadata_copy_scope_witness :
    aliasAddToClassMeta (AliasAttribute.mk' nRph nR) [attrR] =
      ⟨nRph, some uOhm, some dRes⟩ ∧
    aliasAddToClassMeta (AliasAttribute.mk' nRph nR) [] =
      ⟨nRph, none, none⟩ :=
  ⟨alias_metadata_copy_scope.2.1 nRph nR [] [] attrR (by simp) rfl (by simp),
   alias_metadata_copy_scope.2.2 nRph nR [] (by simp)⟩
